import Mathlib

/-!
Verification model of the 3DModelViewer loading pipeline
(src/src/ModelLoader.ts).

The TypeScript source is shallowly embedded below.  File bytes, decoder
payloads and THREE.js objects are modelled abstractly; control flow,
string handling, table handling and the asynchronous aggregation barrier
are modelled faithfully, statement by statement.  External decoders
(FBXLoader, OBJLoader, GLTFLoader, PLYLoader, STLLoader) are opaque
capabilities, so `loadFile` is parameterised by a `Decoders` record and
theorems quantify over it.
-/

set_option maxHeartbeats 1000000

namespace MV

/-! ## Strings: `filename.split('.').pop()?.toLowerCase() || ''` -/

/-- Accumulator version of splitting a character list at every dot,
the behaviour of JS `String.prototype.split('.')`. -/
def splitDotsAux : List Char → List Char → List (List Char)
  | [], acc => [acc.reverse]
  | c :: cs, acc =>
    if c = '.' then acc.reverse :: splitDotsAux cs [] else splitDotsAux cs (c :: acc)

/-- JS `s.split('.')`: always returns a nonempty list of segments. -/
def splitDots (l : List Char) : List (List Char) := splitDotsAux l []

/-- Extension extraction, ModelLoader.ts line 114 and line 234 and line 361:
`filename.split('.').pop()?.toLowerCase() || ''`.  `split` never returns an
empty array, so `pop` always yields the final dot-segment; `Char.toLower`
is the ASCII action of JS `toLowerCase` on the names involved. -/
def extOf (s : String) : String :=
  ⟨((splitDots s.data).getLastD []).map Char.toLower⟩

/-! ## Data model: files, archives, managers -/

/-- Contents of a file.  A zip archive is modelled as the entry table that
`unzipSync` produces from it (keys in listed order, unique); any other
byte payload is opaque.  `unzipSync` applied to a non-archive payload
throws, which the model reflects in the zip branch of `loadContent`. -/
inductive FileContent where
  | bytes (data : List Nat)
  | zipArchive (entries : List (String × FileContent))

/-- A dropped or archive-internal file: JS `File` with a name and bytes. -/
structure MFile where
  name : String
  content : FileContent

/-- A THREE.LoadingManager with a URL modifier installed.
ModelLoader.ts builds two kinds: the outer manager over `filesMap`
(lines 345-357, with leading `./` or `/` stripped before lookup) and a
zip-scoped manager over the archive table (lines 221-229, verbatim
lookup, no stripping). -/
inductive Manager where
  | outer (table : List (String × MFile))
  | zipScoped (table : List (String × FileContent))

/-- Result of the URL modifier: either a blob object URL backed by some
bytes, or the unmodified input reference. -/
inductive ResolveResult where
  | objectURL (backing : FileContent)
  | passthrough (url : String)

/-- The regex `url.replace(/^(\.?\/)/, '')` of line 349: strip one
leading `./`, else one leading `/`, else leave the string alone. -/
def stripLeading (s : String) : String :=
  match s.data with
  | '.' :: '/' :: rest => ⟨rest⟩
  | '/' :: rest => ⟨rest⟩
  | _ => s

/-- First-match association lookup; JS object property read on a table
with unique keys. -/
def lookupA {α : Type} : List (String × α) → String → Option α
  | [], _ => none
  | (k, v) :: rest, key => if k = key then some v else lookupA rest key

/-- Keys of an association table. -/
def mapKeys {α : Type} (m : List (String × α)) : List String := m.map Prod.fst

/-- JS object property write `m[k] = v`: overwrite in place when the key
exists (keeping its position), append otherwise. -/
def assocSet {α : Type} : List (String × α) → String → α → List (String × α)
  | [], k, v => [(k, v)]
  | (k2, v2) :: rest, k, v =>
    if k2 = k then (k, v) :: rest else (k2, v2) :: assocSet rest k v

/-- The URL modifier of each manager kind.  Outer manager, lines 346-356:
`filesMap[url.replace(/^(\.?\/)/, '')]`, then `URL.createObjectURL(file)`
on a hit and `url` on a miss.  Zip manager, lines 222-229: `zip[url]`
looked up verbatim, then an object URL over the entry bytes on a hit and
`url` on a miss. -/
def resolveWith : Manager → String → ResolveResult
  | .outer table, url =>
    match lookupA table (stripLeading url) with
    | some f => .objectURL f.content
    | none => .passthrough url
  | .zipScoped table, url =>
    match lookupA table url with
    | some c => .objectURL c
    | none => .passthrough url

/-- ModelLoader.ts lines 13-19, `createFilesMap`: fold the file list into
a name-keyed table; a later file with the same name overwrites. -/
def createFilesMap (files : List MFile) : List (String × MFile) :=
  files.foldl (fun m f => assocSet m f.name f) []

/-! ## Decoders and dispatch (`loadFile`, lines 112-268) -/

/-- A parsed BufferGeometry as far as the dispatcher inspects it:
`geometry.index` (null or not) and `geometry.hasAttribute('color')`. -/
structure Geometry where
  index : Option (List Nat)
  hasColor : Bool
deriving DecidableEq

/-- The part of a GLTFLoader result the dispatcher consumes:
`result.animations` (merged into the scene). -/
structure GltfResult where
  animations : List Nat
deriving DecidableEq

/-- Opaque external decoder capabilities.  Each may fail (a thrown parse
error or the GLTF onError callback). -/
structure Decoders where
  fbxParse : FileContent → Except String Unit
  objParse : FileContent → Except String Unit
  gltfParse : FileContent → Except String GltfResult
  plyParse : FileContent → Except String Geometry
  stlParse : FileContent → Except String Geometry

/-- The THREE.Object3D values `loadFile` resolves with, as far as the
pipeline observes them.  Group-producing loaders (FBX, OBJ) and the GLTF
loader are constructed over a manager, recorded here because the decoder
resolves secondary resources through it; PLY and STL loaders are
constructed without a manager. -/
inductive Object3D where
  | group (name : String) (mgr : Manager)
  | gltfScene (name : String) (animations : List Nat) (mgr : Manager)
  | mesh (name : String) (vertexColors : Bool) (doubleSide : Bool)
  | points (name : String) (vertexColors : Bool)

/-- The rejection values of `loadFile`. -/
inductive LoadError where
  | decodeFailed (msg : String)
  | noModelInArchive
  | unsupportedFormat (ext : String)
  | invalidArchive
deriving DecidableEq

/-- Outcome of one `loadFile` call, together with the auxiliary decoder
resources (DRACO and KTX2 transcoders, created by `createGLTFLoader`)
that were instantiated and the ones actually disposed. -/
structure LoadOut where
  result : Except LoadError Object3D
  acquired : List String
  released : List String

/-- Line 360: the supported top-level extensions, in source order. -/
def supportedExtensions : List String :=
  ["stl", "obj", "ply", "gltf", "glb", "fbx", "zip"]

/-- Line 231: the extensions searched for inside a zip archive. -/
def zipSupportedExtensions : List String :=
  ["gltf", "glb", "fbx", "obj", "stl", "ply"]

/-- The fbx case, lines 130-137: `FBXLoader(manager).parse`, assign the
file name, resolve; a thrown parse error rejects via the catch block. -/
def loadFBX (d : Decoders) (filename : String) (contents : FileContent)
    (mgr : Manager) : LoadOut :=
  match d.fbxParse contents with
  | .ok _ => ⟨.ok (.group filename mgr), [], []⟩
  | .error m => ⟨.error (.decodeFailed m), [], []⟩

/-- The glb case (lines 139-156) and the gltf case (lines 158-175):
`createGLTFLoader` instantiates a DRACO transcoder and a KTX2
transcoder; on parse success the scene gets the file name, the
animations are merged, both transcoders are disposed and the promise
resolves; the parse error callback is plain `reject`, with no
disposal. -/
def loadGLTF (d : Decoders) (filename : String) (contents : FileContent)
    (mgr : Manager) : LoadOut :=
  match d.gltfParse contents with
  | .ok r =>
    ⟨.ok (.gltfScene filename r.animations mgr), ["draco", "ktx2"], ["draco", "ktx2"]⟩
  | .error m => ⟨.error (.decodeFailed m), ["draco", "ktx2"], []⟩

/-- The obj case, lines 177-183: `OBJLoader(manager).parse`, assign the
file name, resolve. -/
def loadOBJ (d : Decoders) (filename : String) (contents : FileContent)
    (mgr : Manager) : LoadOut :=
  match d.objParse contents with
  | .ok _ => ⟨.ok (.group filename mgr), [], []⟩
  | .error m => ⟨.error (.decodeFailed m), [], []⟩

/-- The ply case, lines 185-207: parse the geometry; with a non-null
index buffer wrap it in a Mesh whose standard material enables
vertexColors iff the geometry has a color attribute and renders double
sided; with a null index buffer wrap it in Points whose material
enables vertexColors iff the color attribute exists. -/
def loadPLY (d : Decoders) (filename : String) (contents : FileContent) : LoadOut :=
  match d.plyParse contents with
  | .ok g =>
    if g.index.isSome then ⟨.ok (.mesh filename g.hasColor true), [], []⟩
    else ⟨.ok (.points filename g.hasColor), [], []⟩
  | .error m => ⟨.error (.decodeFailed m), [], []⟩

/-- The stl case, lines 209-217: parse the geometry and always wrap it
in a Mesh with a plain default MeshStandardMaterial (no vertexColors,
no double-sided flag), whatever the geometry contains. -/
def loadSTL (d : Decoders) (filename : String) (contents : FileContent) : LoadOut :=
  match d.stlParse contents with
  | .ok _ => ⟨.ok (.mesh filename false false), [], []⟩
  | .error m => ⟨.error (.decodeFailed m), [], []⟩

mutual

/-- The switch statement of `loadFile` (lines 129-251), dispatching on
the lowercased final dot-segment of the file name, branches in source
order; the zip case (lines 219-245) unzips the archive, builds a fresh
zip-scoped manager over the entry table and scans the entries for the
first supported model file, and the default case (line 247) rejects
with an unsupported-format error.  `unzipSync` on a payload that is not
an archive throws, rejecting through the catch block. -/
def loadContent (d : Decoders) (filename : String) (contents : FileContent)
    (mgr : Manager) : LoadOut :=
  let ext := extOf filename
  if ext = "fbx" then loadFBX d filename contents mgr
  else if ext = "glb" then loadGLTF d filename contents mgr
  else if ext = "gltf" then loadGLTF d filename contents mgr
  else if ext = "obj" then loadOBJ d filename contents mgr
  else if ext = "ply" then loadPLY d filename contents
  else if ext = "stl" then loadSTL d filename contents
  else if ext = "zip" then
    match contents with
    | .bytes _ => ⟨.error .invalidArchive, [], []⟩
    | .zipArchive entries => loadFirstInZip d entries entries
  else ⟨.error (.unsupportedFormat ext), [], []⟩

/-- The `for (const path in zip)` loop of lines 232-242: walk the entry
table in listed order; at the first entry with a supported extension,
build an inner File named by the full entry path and recurse into
`loadFile` under the fresh zip-scoped manager; reject with the
no-model-in-archive error when the loop finishes without a hit
(line 243).  `zipTable` is the whole table the fresh manager wraps. -/
def loadFirstInZip (d : Decoders) (zipTable : List (String × FileContent)) :
    List (String × FileContent) → LoadOut
  | [] => ⟨.error .noModelInArchive, [], []⟩
  | (path, c) :: rest =>
    if zipSupportedExtensions.contains (extOf path) then
      loadContent d path c (.zipScoped zipTable)
    else loadFirstInZip d zipTable rest

end

/-- ModelLoader.ts `loadFile(file, manager)`: dispatch on the extension
of `file.name`. -/
def loadFile (d : Decoders) (file : MFile) (mgr : Manager) : LoadOut :=
  loadContent d file.name file.content mgr

/-! ## Scene, orchestration (`loadModel`, lines 312-388) -/

/-- A child of the target THREE.Scene as `clearScene` inspects it:
the `isCamera`, `isLight` and `isAxesHelper` flags, plus an optional
model payload for children this pipeline inserted. -/
structure SceneChild where
  isCamera : Bool
  isLight : Bool
  isAxesHelper : Bool
  payload : Option Object3D

/-- Line 317: children kept by `clearScene`. -/
def isHelper (ch : SceneChild) : Bool :=
  ch.isCamera || ch.isLight || ch.isAxesHelper

/-- Lines 312-322, `clearScene`: collect every child that is not a
camera, light or axes helper and remove each collected child.  Under
object identity this keeps exactly the helper children, in order. -/
def clearScene (scene : List SceneChild) : List SceneChild :=
  scene.filter isHelper

/-- Lines 276-305, `normalizeModel`: recentre and rescale the object.
The spec places the geometry of this step out of scope; it touches only
position and scale, none of the fields this model observes, so it is the
identity on the observed abstraction. -/
def normalizeModel (o : Object3D) : Object3D := o

/-- Line 374, `scene.add(object)`: the inserted child is not a camera,
light or axes helper. -/
def modelChild (o : Object3D) : SceneChild := ⟨false, false, false, some o⟩

/-- How one `loadModel` call ends.  `emptyInput` is the bare `return` of
line 342; `noSupportedFile` is the alert of lines 383-387;
`loadFailed` is the catch block of lines 377-381. -/
inductive Outcome where
  | success
  | emptyInput
  | noSupportedFile
  | loadFailed (e : LoadError)
deriving DecidableEq

/-- Line 361: `files.find(...)`, the primary-file selection. -/
def primaryFile (files : List MFile) : Option MFile :=
  files.find? (fun f => supportedExtensions.contains (extOf f.name))

/-- Lines 364-381: the branch of `loadModel` taken once a primary file
was found: load it; on success normalize, clear the old model children
and append the new object; on failure alert and leave the scene exactly
as it was. -/
def dispatchPrimary (d : Decoders) (primary : MFile) (manager : Manager)
    (scene : List SceneChild) : List SceneChild × Outcome :=
  match (loadFile d primary manager).result with
  | .ok object =>
    (clearScene scene ++ [modelChild (normalizeModel object)], .success)
  | .error e => (scene, .loadFailed e)

/-- Lines 359-387: select the primary file; without one, alert
no-supported-file and leave the scene alone. -/
def selectAndLoad (d : Decoders) (files : List MFile) (manager : Manager)
    (scene : List SceneChild) : List SceneChild × Outcome :=
  match primaryFile files with
  | some primary => dispatchPrimary d primary manager scene
  | none => (scene, .noSupportedFile)

/-- Lines 330-388, `loadModel`, after the input branch has produced
`files` and `filesMap`: return silently on an empty list (line 342),
build the outer manager over `filesMap` (lines 345-357), then select
and dispatch. -/
def loadModelWith (d : Decoders) (files : List MFile)
    (filesMap : List (String × MFile)) (scene : List SceneChild) :
    List SceneChild × Outcome :=
  if files.length = 0 then (scene, .emptyInput)
  else selectAndLoad d files (Manager.outer filesMap) scene

/-- The FileList branch of `loadModel` (lines 337-340): materialise the
flat list and key the map by `file.name` via `createFilesMap`. -/
def loadModelFlat (d : Decoders) (files : List MFile)
    (scene : List SceneChild) : List SceneChild × Outcome :=
  loadModelWith d files (createFilesMap files) scene

end MV

namespace Agg

/-!
## The aggregation barrier (`getFilesFromItemList`, lines 27-72)

The DataTransferItemList branch walks a dynamically discovered tree of
filesystem entries with two counters, `itemsTotal` (entries enqueued)
and `itemsCount` (entries finished), and resolves its promise whenever
`itemsCount === itemsTotal` after an increment.  The browser callbacks
(`reader.readEntries`, `entry.file`) are asynchronous tasks on the
single-threaded event loop; an arbitrary dispatch order is modelled by a
schedule choosing which pending callback runs next.  Entries that are
neither directories nor files take the synchronous else branch of
line 62.
-/

/-- A filesystem entry as `handleEntry` distinguishes them: a directory
with children, a file (name, fullPath already stripped of its leading
slash, opaque contents), or anything else. -/
inductive Entry where
  | dir (children : List Entry)
  | file (name : String) (path : String) (content : Nat)
  | other

/-- A pending asynchronous callback: the `readEntries` continuation of a
directory (line 47) or the `entry.file` continuation of a file
(line 54). -/
inductive Task where
  | dirCallback (children : List Entry)
  | fileCallback (name : String) (path : String) (content : Nat)

/-- A record of one call to `resolve`: the two counters and the
registered files map at that moment. -/
structure Resolution where
  count : Nat
  total : Nat
  filesMap : List (String × Nat)
deriving DecidableEq

/-- The closure state of one `getFilesFromItemList` call. -/
structure AggState where
  itemsCount : Nat
  itemsTotal : Nat
  files : List (String × Nat)
  filesMap : List (String × Nat)
  pending : List Task
  resolutions : List Resolution

/-- Lines 36-41, `onEntryHandled`: increment `itemsCount` and resolve
when it meets `itemsTotal`. -/
def onEntryHandled (s : AggState) : AggState :=
  let c := s.itemsCount + 1
  if c = s.itemsTotal then
    { s with itemsCount := c,
             resolutions := s.resolutions ++ [⟨c, s.itemsTotal, s.filesMap⟩] }
  else { s with itemsCount := c }

/-- Lines 43-64, `handleEntry`, synchronous part: increment `itemsTotal`,
then either register an asynchronous callback (directory or file) or,
for anything else, call `onEntryHandled` immediately. -/
def handleEntry (s : AggState) (e : Entry) : AggState :=
  match e with
  | .dir children =>
    { s with itemsTotal := s.itemsTotal + 1,
             pending := s.pending ++ [.dirCallback children] }
  | .file n p c =>
    { s with itemsTotal := s.itemsTotal + 1,
             pending := s.pending ++ [.fileCallback n p c] }
  | .other => onEntryHandled { s with itemsTotal := s.itemsTotal + 1 }

/-- A synchronous burst of `handleEntry` calls over a list of entries:
the top-level loop of lines 66-70 or the child loop of lines 48-50. -/
def processEntries (s : AggState) (es : List Entry) : AggState :=
  es.foldl handleEntry s

/-- Running one dispatched callback.  Directory callback, lines 47-52:
handle every child synchronously, then `onEntryHandled`.  File callback,
lines 54-59: push the file, register it in `filesMap` keyed by the
stripped full path, then `onEntryHandled`. -/
def runTask (s : AggState) : Task → AggState
  | .dirCallback children => onEntryHandled (processEntries s children)
  | .fileCallback n p c =>
    onEntryHandled { s with files := s.files ++ [(n, c)],
                            filesMap := MV.assocSet s.filesMap p c }

/-- One event-loop step over a given pending queue: the schedule value
picks which pending callback fires next; with nothing pending the state
is final. -/
def stepAggAux (s : AggState) (choice : Nat) : List Task → AggState
  | [] => s
  | t :: rest =>
    let l := t :: rest
    let idx := choice % l.length
    runTask { s with pending := l.eraseIdx idx }
      (l.get ⟨idx, Nat.mod_lt _ (Nat.succ_pos rest.length)⟩)

/-- One event-loop step of the aggregation. -/
def stepAgg (s : AggState) (choice : Nat) : AggState :=
  stepAggAux s choice s.pending

/-- Run the event loop under a schedule. -/
def runAgg (s : AggState) (sched : List Nat) : AggState :=
  sched.foldl stepAgg s

/-- The synchronous body of the promise executor, lines 30-71: fresh
counters and tables, then `handleEntry` on every top-level entry. -/
def startAgg (items : List Entry) : AggState :=
  processEntries ⟨0, 0, [], [], [], []⟩ items

/-- `getFilesFromItemList` observed after the synchronous start and a
given asynchronous schedule. -/
def getFilesFromItemList (items : List Entry) (sched : List Nat) : AggState :=
  runAgg (startAgg items) sched

mutual

/-- Number of directory and file entries in one entry tree: every such
node owes exactly one asynchronous callback. -/
def entryWeight : Entry → Nat
  | .dir children => 1 + entryListWeight children
  | .file _ _ _ => 1
  | .other => 0

/-- Total weight of a forest. -/
def entryListWeight : List Entry → Nat
  | [] => 0
  | e :: es => entryWeight e + entryListWeight es

end

mutual

/-- The paths of every file entry in one entry tree. -/
def entryPaths : Entry → List String
  | .dir children => entryListPaths children
  | .file _ p _ => [p]
  | .other => []

/-- The paths of every file entry in a forest. -/
def entryListPaths : List Entry → List String
  | [] => []
  | e :: es => entryPaths e ++ entryListPaths es

end

/-- The callback an entry registers, if any. -/
def taskOfEntry : Entry → Option Task
  | .dir children => some (.dirCallback children)
  | .file n p c => some (.fileCallback n p c)
  | .other => none

/-- Callbacks registered by a synchronous burst over a list of entries. -/
def tasksOfEntries (es : List Entry) : List Task := es.filterMap taskOfEntry

/-- Callbacks still owed by one pending callback, itself included. -/
def taskWeight : Task → Nat
  | .dirCallback children => 1 + entryListWeight children
  | .fileCallback _ _ _ => 1

/-- File paths still to be registered by one pending callback. -/
def taskPaths : Task → List String
  | .dirCallback children => entryListPaths children
  | .fileCallback _ p _ => [p]

/-- Remaining work in a state. -/
def pendingWeight (s : AggState) : Nat := (s.pending.map taskWeight).sum

/-- Number of entries of a list that are neither files nor directories. -/
def othersCount (es : List Entry) : Nat :=
  (es.filter (fun e => match e with | .other => true | _ => false)).length

/-- The barrier invariant, relative to the paths of the dropped tree:
the counter gap equals the number of pending callbacks, a resolution has
been recorded exactly when nothing is pending (and then it carries the
final counters and table), and every dropped path is either registered
already or owed by some pending callback. -/
def AggInv (paths : List String) (s : AggState) : Prop :=
  s.itemsTotal = s.itemsCount + s.pending.length
  ∧ (s.pending = [] →
      s.resolutions = [⟨s.itemsCount, s.itemsTotal, s.filesMap⟩])
  ∧ (s.pending ≠ [] → s.resolutions = [])
  ∧ ∀ p ∈ paths, p ∈ MV.mapKeys s.filesMap ∨ ∃ t ∈ s.pending, p ∈ taskPaths t

/-- The amended input condition: the drop contains at least one item and
its first top-level entry is a directory or a file. -/
def firstFileOrDir : List Entry → Prop
  | .dir _ :: _ => True
  | .file _ _ _ :: _ => True
  | _ => False

end Agg

namespace MV

/-! ## Concrete fixtures used by witnesses and counterexamples -/

/-- Decoders whose STL decoder yields an unindexed geometry carrying a
per-vertex color attribute; the other formats are unused. -/
def stlPointCloudDecoders : Decoders where
  fbxParse := fun _ => .error "unused"
  objParse := fun _ => .error "unused"
  gltfParse := fun _ => .error "unused"
  plyParse := fun _ => .error "unused"
  stlParse := fun _ => .ok ⟨none, true⟩

/-- Decoders whose GLTF decoder rejects every payload. -/
def corruptGltfDecoders : Decoders where
  fbxParse := fun _ => .error "unused"
  objParse := fun _ => .error "unused"
  gltfParse := fun _ => .error "corrupt"
  plyParse := fun _ => .error "unused"
  stlParse := fun _ => .error "unused"

/-- A dropped material file fixture. -/
def mtlFile : MFile := ⟨"model.mtl", .bytes [5]⟩

/-- A zip entry payload fixture. -/
def texBytes : FileContent := .bytes [1]

/-- The archive of the spec scenario: a readme and a model in a
subfolder. -/
def bundleEntries : List (String × FileContent) :=
  [("readme.txt", .bytes [3]), ("mesh/part.stl", .bytes [4])]

/-- A camera helper child. -/
def cameraChild : SceneChild := ⟨true, false, false, none⟩

/-- A demonstration scene: a camera, a light, an axes helper and one
stale model child. -/
def demoScene : List SceneChild :=
  [cameraChild, ⟨false, true, false, none⟩,
   ⟨false, false, true, none⟩, ⟨false, false, false, none⟩]

/-- Decoders whose PLY decoder yields an indexed geometry carrying a
per-vertex color attribute. -/
def plyMeshDecoders : Decoders where
  fbxParse := fun _ => .error "unused"
  objParse := fun _ => .error "unused"
  gltfParse := fun _ => .error "unused"
  plyParse := fun _ => .ok ⟨some [0, 1, 2], true⟩
  stlParse := fun _ => .error "unused"

/-- Decoders whose GLTF decoder accepts every payload and yields one
animation clip. -/
def okGltfDecoders : Decoders where
  fbxParse := fun _ => .error "unused"
  objParse := fun _ => .error "unused"
  gltfParse := fun _ => .ok ⟨[1]⟩
  plyParse := fun _ => .error "unused"
  stlParse := fun _ => .error "unused"

/-- Two dropped files sharing a name, with different payloads. -/
def dupFiles : List MFile := [⟨"m.obj", .bytes [1]⟩, ⟨"m.obj", .bytes [2]⟩]

/-- A drop with an unsupported file before a supported one whose
extension is uppercased. -/
def mixedFiles : List MFile := [⟨"notes.txt", .bytes [9]⟩, ⟨"Model.STL", .bytes [8]⟩]

end MV

namespace MV

/-! ## Helper lemmas: characters and extension extraction -/

theorem charToNat_ofNat_lt (n : Nat) (h : n < 55296) : (Char.ofNat n).toNat = n := by
  rw [Char.ofNat, dif_pos (Or.inl h)]
  rfl

theorem toLower_toUpper (c : Char) : c.toUpper.toLower = c.toLower := by
  by_cases h : 97 ≤ c.toNat ∧ c.toNat ≤ 122
  · obtain ⟨h1, h2⟩ := h
    have hu : c.toUpper = Char.ofNat (c.toNat - 32) := by
      simp only [Char.toUpper, ge_iff_le]
      rw [if_pos ⟨h1, h2⟩]
    have hv : (Char.ofNat (c.toNat - 32)).toNat = c.toNat - 32 :=
      charToNat_ofNat_lt _ (by omega)
    rw [hu]
    simp only [Char.toLower, ge_iff_le, hv]
    rw [if_pos ⟨by omega, by omega⟩, if_neg (by omega)]
    have he : c.toNat - 32 + 32 = c.toNat := by omega
    rw [he, Char.ofNat_toNat]
  · have hu : c.toUpper = c := by
      simp only [Char.toUpper, ge_iff_le]
      rw [if_neg h]
    rw [hu]

theorem toUpper_eq_dot_iff (c : Char) : c.toUpper = '.' ↔ c = '.' := by
  constructor
  · intro hEq
    by_cases h : 97 ≤ c.toNat ∧ c.toNat ≤ 122
    · exfalso
      obtain ⟨h1, h2⟩ := h
      simp only [Char.toUpper, ge_iff_le] at hEq
      rw [if_pos ⟨h1, h2⟩] at hEq
      have hv : (Char.ofNat (c.toNat - 32)).toNat = c.toNat - 32 :=
        charToNat_ofNat_lt _ (by omega)
      have hc := congrArg Char.toNat hEq
      rw [hv] at hc
      have hd : ('.' : Char).toNat = 46 := rfl
      omega
    · simp only [Char.toUpper, ge_iff_le] at hEq
      rwa [if_neg h] at hEq
  · rintro rfl
    rfl

theorem splitDotsAux_map_toUpper (l : List Char) :
    ∀ acc : List Char,
      splitDotsAux (l.map Char.toUpper) (acc.map Char.toUpper)
        = (splitDotsAux l acc).map (List.map Char.toUpper) := by
  induction l with
  | nil =>
    intro acc
    show [(acc.map Char.toUpper).reverse] = [acc.reverse.map Char.toUpper]
    rw [List.map_reverse]
  | cons c cs ih =>
    intro acc
    by_cases h : c = '.'
    · subst h
      show (acc.map Char.toUpper).reverse :: splitDotsAux (cs.map Char.toUpper) []
          = acc.reverse.map Char.toUpper :: (splitDotsAux cs []).map (List.map Char.toUpper)
      rw [List.map_reverse]
      exact congrArg _ (ih [])
    · have h2 : ¬ Char.toUpper c = '.' := fun hh => h ((toUpper_eq_dot_iff c).mp hh)
      show splitDotsAux (Char.toUpper c :: cs.map Char.toUpper) (acc.map Char.toUpper)
          = (splitDotsAux (c :: cs) acc).map (List.map Char.toUpper)
      simp only [splitDotsAux, if_neg h, if_neg h2]
      exact ih (c :: acc)

theorem getLastD_map_nil (g : List Char → List Char) (hg : g [] = [])
    (L : List (List Char)) : (L.map g).getLastD [] = g (L.getLastD []) := by
  have h := List.getLastD_map g L []
  rwa [hg] at h

/-- Case-insensitivity of extension extraction: uppercasing the whole
file name does not change the extracted extension. -/
theorem extOf_map_toUpper (s : String) :
    extOf ⟨s.data.map Char.toUpper⟩ = extOf s := by
  obtain ⟨data⟩ := s
  simp only [extOf, splitDots]
  apply congrArg
  have hs : splitDotsAux (data.map Char.toUpper) []
      = (splitDotsAux data []).map (List.map Char.toUpper) :=
    splitDotsAux_map_toUpper data []
  rw [hs, getLastD_map_nil _ rfl, List.map_map]
  exact List.map_congr_left fun c _ => toLower_toUpper c

/-! ## Helper lemmas: association tables -/

theorem lookupA_assocSet {α : Type} (k key : String) (v : α) :
    ∀ m : List (String × α),
      lookupA (assocSet m k v) key = if k = key then some v else lookupA m key := by
  intro m
  induction m with
  | nil => rfl
  | cons kv rest ih =>
    obtain ⟨k2, v2⟩ := kv
    by_cases h : k2 = k
    · subst h
      by_cases hk : k2 = key
      · subst hk
        simp [assocSet, lookupA]
      · simp [assocSet, lookupA, hk]
    · by_cases hk : k2 = key
      · subst hk
        have hne : ¬ k = k2 := fun hh => h hh.symm
        simp [assocSet, lookupA, h, hne]
      · simp [assocSet, lookupA, h, hk, ih]

theorem mem_mapKeys_of_mem {α : Type} (q k : String) (v : α) :
    ∀ m : List (String × α), q ∈ mapKeys m → q ∈ mapKeys (assocSet m k v) := by
  intro m
  induction m with
  | nil => intro h; simp [mapKeys] at h
  | cons kv rest ih =>
    intro h
    obtain ⟨k2, v2⟩ := kv
    simp only [mapKeys, List.map_cons, List.mem_cons] at h
    by_cases hk : k2 = k
    · subst hk
      rw [show assocSet ((k2, v2) :: rest) k2 v = (k2, v) :: rest from by
        rw [assocSet, if_pos rfl]]
      simp only [mapKeys, List.map_cons, List.mem_cons]
      exact h
    · simp only [assocSet, if_neg hk, mapKeys, List.map_cons, List.mem_cons]
      rcases h with h | h
      · exact Or.inl h
      · exact Or.inr (ih h)

theorem mem_mapKeys_assocSet_self {α : Type} (k : String) (v : α) :
    ∀ m : List (String × α), k ∈ mapKeys (assocSet m k v) := by
  intro m
  induction m with
  | nil => simp [assocSet, mapKeys]
  | cons kv rest ih =>
    obtain ⟨k2, v2⟩ := kv
    by_cases hk : k2 = k
    · subst hk
      simp [assocSet, mapKeys]
    · simp only [assocSet, if_neg hk, mapKeys, List.map_cons, List.mem_cons]
      exact Or.inr ih

theorem mem_mapKeys_iff_lookupA {α : Type} (k : String) :
    ∀ m : List (String × α), k ∈ mapKeys m ↔ ∃ v, lookupA m k = some v := by
  intro m
  induction m with
  | nil => simp [mapKeys, lookupA]
  | cons kv rest ih =>
    obtain ⟨k2, v2⟩ := kv
    by_cases h : k2 = k
    · subst h
      simp [mapKeys, lookupA]
    · have h2 : lookupA ((k2, v2) :: rest) k = lookupA rest k := by
        simp [lookupA, h]
      have h3 : k ∈ mapKeys ((k2, v2) :: rest) ↔ k ∈ mapKeys rest := by
        simp only [mapKeys, List.map_cons, List.mem_cons]
        constructor
        · rintro (hh | hh)
          · exact absurd hh.symm h
          · exact hh
        · exact Or.inr
      rw [h2, h3, ih]

theorem find?_append_or {α : Type} (p : α → Bool) (l1 l2 : List α) :
    (l1 ++ l2).find? p = (l1.find? p).or (l2.find? p) :=
  List.find?_append

theorem createFilesMap_go (files : List MFile) :
    ∀ (acc : List (String × MFile)) (k : String),
      lookupA (files.foldl (fun m f => assocSet m f.name f) acc) k
        = (files.reverse.find? (fun f => f.name == k)).or (lookupA acc k) := by
  induction files with
  | nil =>
    intro acc k
    simp [lookupA]
  | cons f fs ih =>
    intro acc k
    simp only [List.foldl_cons, List.reverse_cons, find?_append_or]
    rw [ih]
    cases hf : fs.reverse.find? (fun g => g.name == k) with
    | some g => rfl
    | none =>
      simp only [Option.none_or]
      rw [lookupA_assocSet]
      by_cases h : f.name = k
      · have hb : (f.name == k) = true := by simp [h]
        simp [List.find?, hb, h]
      · have hb : (f.name == k) = false := by simp [h]
        simp [List.find?, hb, h]

/-! ## Helper lemmas: first-match characterisation -/

theorem find?_first_characterization {α : Type} (p : α → Bool) :
    ∀ (l : List α) (x : α), l.find? p = some x →
      ∃ i : Fin l.length, l.get i = x ∧ p x = true ∧
        ∀ j : Fin l.length, j.val < i.val → p (l.get j) = false := by
  intro l
  induction l with
  | nil => intro x h; simp [List.find?] at h
  | cons a as ih =>
    intro x h
    by_cases hp : p a
    · rw [List.find?_cons_of_pos _ hp] at h
      injection h with h
      subst h
      exact ⟨⟨0, Nat.succ_pos _⟩, rfl, hp, fun j hj => absurd hj (Nat.not_lt_zero _)⟩
    · rw [List.find?_cons_of_neg _ hp] at h
      obtain ⟨i, hget, hpx, hbefore⟩ := ih x h
      refine ⟨⟨i.val + 1, Nat.succ_lt_succ i.isLt⟩, by simpa using hget, hpx, ?_⟩
      intro j hj
      match j with
      | ⟨0, _⟩ => simpa using hp
      | ⟨jv + 1, hjv⟩ =>
        have := hbefore ⟨jv, Nat.lt_of_succ_lt_succ hjv⟩ (Nat.lt_of_succ_lt_succ hj)
        simpa using this

/-! ## Helper lemmas: zip scanning -/

theorem loadFirstInZip_eq (d : Decoders) (zipTable : List (String × FileContent)) :
    ∀ l : List (String × FileContent),
      loadFirstInZip d zipTable l =
        match l.find? (fun pc => zipSupportedExtensions.contains (extOf pc.1)) with
        | some pc => loadContent d pc.1 pc.2 (.zipScoped zipTable)
        | none => ⟨.error .noModelInArchive, [], []⟩ := by
  intro l
  induction l with
  | nil => rfl
  | cons pc rest ih =>
    obtain ⟨path, c⟩ := pc
    by_cases h : zipSupportedExtensions.contains (extOf path)
    · have hp : (fun pc : String × FileContent =>
          zipSupportedExtensions.contains (extOf pc.1)) (path, c) = true := h
      have hfind : List.find? (fun pc : String × FileContent =>
          zipSupportedExtensions.contains (extOf pc.1)) ((path, c) :: rest)
          = some (path, c) := List.find?_cons_of_pos _ hp
      rw [loadFirstInZip, if_pos h, hfind]
    · have hp : ¬ (fun pc : String × FileContent =>
          zipSupportedExtensions.contains (extOf pc.1)) (path, c) = true := h
      have hfind : List.find? (fun pc : String × FileContent =>
          zipSupportedExtensions.contains (extOf pc.1)) ((path, c) :: rest)
          = List.find? (fun pc : String × FileContent =>
              zipSupportedExtensions.contains (extOf pc.1)) rest :=
        List.find?_cons_of_neg _ hp
      rw [loadFirstInZip, if_neg h, hfind, ih]

end MV


namespace MV

/-! ## Helper lemmas: dispatch branches -/

theorem loadContent_ext_fbx (d : Decoders) (filename : String) (contents : FileContent)
    (mgr : Manager) (he : extOf filename = "fbx") :
    loadContent d filename contents mgr = loadFBX d filename contents mgr := by
  cases contents <;> (simp only [loadContent, he]; rfl)

theorem loadContent_ext_glb (d : Decoders) (filename : String) (contents : FileContent)
    (mgr : Manager) (he : extOf filename = "glb") :
    loadContent d filename contents mgr = loadGLTF d filename contents mgr := by
  cases contents <;> (simp only [loadContent, he]; rfl)

theorem loadContent_ext_gltf (d : Decoders) (filename : String) (contents : FileContent)
    (mgr : Manager) (he : extOf filename = "gltf") :
    loadContent d filename contents mgr = loadGLTF d filename contents mgr := by
  cases contents <;> (simp only [loadContent, he]; rfl)

theorem loadContent_ext_obj (d : Decoders) (filename : String) (contents : FileContent)
    (mgr : Manager) (he : extOf filename = "obj") :
    loadContent d filename contents mgr = loadOBJ d filename contents mgr := by
  cases contents <;> (simp only [loadContent, he]; rfl)

theorem loadContent_ext_ply (d : Decoders) (filename : String) (contents : FileContent)
    (mgr : Manager) (he : extOf filename = "ply") :
    loadContent d filename contents mgr = loadPLY d filename contents := by
  cases contents <;> (simp only [loadContent, he]; rfl)

theorem loadContent_ext_stl (d : Decoders) (filename : String) (contents : FileContent)
    (mgr : Manager) (he : extOf filename = "stl") :
    loadContent d filename contents mgr = loadSTL d filename contents := by
  cases contents <;> (simp only [loadContent, he]; rfl)

theorem loadContent_ext_zip (d : Decoders) (filename : String)
    (entries : List (String × FileContent)) (mgr : Manager)
    (he : extOf filename = "zip") :
    loadContent d filename (.zipArchive entries) mgr = loadFirstInZip d entries entries := by
  simp only [loadContent, he]; rfl

theorem loadPLY_ok (d : Decoders) (filename : String) (contents : FileContent)
    (g : Geometry) (hp : d.plyParse contents = .ok g) :
    loadPLY d filename contents =
      if g.index.isSome then ⟨.ok (.mesh filename g.hasColor true), [], []⟩
      else ⟨.ok (.points filename g.hasColor), [], []⟩ := by
  unfold loadPLY
  rw [hp]

theorem loadSTL_ok (d : Decoders) (filename : String) (contents : FileContent)
    (g : Geometry) (hp : d.stlParse contents = .ok g) :
    loadSTL d filename contents = ⟨.ok (.mesh filename false false), [], []⟩ := by
  unfold loadSTL
  rw [hp]

theorem loadGLTF_ok (d : Decoders) (filename : String) (contents : FileContent)
    (mgr : Manager) (r : GltfResult) (hp : d.gltfParse contents = .ok r) :
    loadGLTF d filename contents mgr =
      ⟨.ok (.gltfScene filename r.animations mgr), ["draco", "ktx2"], ["draco", "ktx2"]⟩ := by
  unfold loadGLTF
  rw [hp]

theorem loadGLTF_err (d : Decoders) (filename : String) (contents : FileContent)
    (mgr : Manager) (m : String) (hp : d.gltfParse contents = .error m) :
    loadGLTF d filename contents mgr = ⟨.error (.decodeFailed m), ["draco", "ktx2"], []⟩ := by
  unfold loadGLTF
  rw [hp]

/-! ## Helper lemmas: reference normalization -/

theorem stripLeading_dotSlash (k : String) : stripLeading ("./" ++ k) = k := by
  obtain ⟨data⟩ := k
  rfl

theorem stripLeading_slash (k : String) : stripLeading ("/" ++ k) = k := by
  obtain ⟨data⟩ := k
  rfl

/-! ## Claim theorems for the resolver, dispatcher and orchestrator -/

/-- Claim C2, corrected.  VFS resolution is total for both resolvers:
each returns either an object URL backed by bytes or the input
reference unchanged, never failing.  The normalization that strips one
leading dot-slash or slash belongs to the outer resolver only: the
outer resolver looks its reference up after stripping (so a table hit
under the stripped key yields a handle backed by the matched file
bytes, and a miss passes the reference through), while the zip-scoped
resolver looks its reference up verbatim, with no stripping. -/
theorem c2_resolver_characterization
    (table : List (String × MFile)) (ztable : List (String × FileContent))
    (url k : String) (f : MFile) (c : FileContent) :
    ((∃ b, resolveWith (.outer table) url = .objectURL b)
        ∨ resolveWith (.outer table) url = .passthrough url)
    ∧ ((∃ b, resolveWith (.zipScoped ztable) url = .objectURL b)
        ∨ resolveWith (.zipScoped ztable) url = .passthrough url)
    ∧ (lookupA table (stripLeading url) = some f →
        resolveWith (.outer table) url = .objectURL f.content)
    ∧ (lookupA table (stripLeading url) = none →
        resolveWith (.outer table) url = .passthrough url)
    ∧ stripLeading ("./" ++ k) = k
    ∧ stripLeading ("/" ++ k) = k
    ∧ (lookupA ztable url = some c →
        resolveWith (.zipScoped ztable) url = .objectURL c)
    ∧ (lookupA ztable url = none →
        resolveWith (.zipScoped ztable) url = .passthrough url) := by
  refine ⟨?_, ?_, ?_, ?_, stripLeading_dotSlash k, stripLeading_slash k, ?_, ?_⟩
  · cases hl : lookupA table (stripLeading url) with
    | some g => exact Or.inl ⟨g.content, by simp [resolveWith, hl]⟩
    | none => exact Or.inr (by simp [resolveWith, hl])
  · cases hl : lookupA ztable url with
    | some b => exact Or.inl ⟨b, by simp [resolveWith, hl]⟩
    | none => exact Or.inr (by simp [resolveWith, hl])
  · intro hl; simp [resolveWith, hl]
  · intro hl; simp [resolveWith, hl]
  · intro hl; simp [resolveWith, hl]
  · intro hl; simp [resolveWith, hl]

/-- Claim C2 counterexample: the zip-scoped resolver does not strip a
leading dot-slash.  With an archive entry keyed `tex.png`, resolving
the reference `./tex.png` misses and passes the reference through, even
though the stripped key is present in the table; the outer resolver,
which does strip, hits on the same shaped input. -/
theorem c2_zip_resolver_not_normalizing :
    stripLeading "./tex.png" = "tex.png"
    ∧ lookupA [("tex.png", texBytes)] "tex.png" = some texBytes
    ∧ resolveWith (.zipScoped [("tex.png", texBytes)]) "./tex.png"
        = .passthrough "./tex.png"
    ∧ resolveWith (.outer [("tex.png", ⟨"tex.png", texBytes⟩)]) "./tex.png"
        = .objectURL texBytes :=
  ⟨rfl, rfl, rfl, rfl⟩

/-- Witness for C2: the outer resolver dereferences `./model.mtl` to
the dropped material bytes and the zip resolver dereferences a verbatim
entry key. -/
theorem c2_resolver_witness :
    resolveWith (.outer [("model.mtl", mtlFile)]) "./model.mtl"
        = .objectURL mtlFile.content
    ∧ resolveWith (.zipScoped [("tex.png", texBytes)]) "tex.png"
        = .objectURL texBytes := by
  have h1 := c2_resolver_characterization [("model.mtl", mtlFile)]
      [("tex.png", texBytes)] "./model.mtl" "model.mtl" mtlFile texBytes
  have h2 := c2_resolver_characterization [("model.mtl", mtlFile)]
      [("tex.png", texBytes)] "tex.png" "tex.png" mtlFile texBytes
  exact ⟨h1.2.2.1 rfl, h2.2.2.2.2.2.2.1 rfl⟩

/-- Claim C4, corrected.  For a PLY result the wrapping is determined
solely by the index buffer: a non-null index yields a surface mesh and
a null index yields a point collection, with vertex-color support
enabled iff the geometry carries a color attribute.  An STL result,
however, is always wrapped as a surface mesh with a plain default
material: its index buffer and color attribute are never consulted. -/
theorem c4_geometry_classification (d : Decoders) (f : MFile) (mgr : Manager)
    (g : Geometry) :
    (extOf f.name = "ply" → d.plyParse f.content = .ok g →
      (loadFile d f mgr).result =
        .ok (if g.index.isSome then Object3D.mesh f.name g.hasColor true
             else Object3D.points f.name g.hasColor))
    ∧ (extOf f.name = "stl" → d.stlParse f.content = .ok g →
      (loadFile d f mgr).result = .ok (Object3D.mesh f.name false false)) := by
  constructor
  · intro he hp
    show (loadContent d f.name f.content mgr).result = _
    rw [loadContent_ext_ply d f.name f.content mgr he,
        loadPLY_ok d f.name f.content g hp]
    by_cases hi : g.index.isSome <;> simp [hi]
  · intro he hp
    show (loadContent d f.name f.content mgr).result = _
    rw [loadContent_ext_stl d f.name f.content mgr he,
        loadSTL_ok d f.name f.content g hp]

/-- Claim C4 counterexample: an STL geometry with a null index buffer
and a per-vertex color attribute is still wrapped as a mesh with vertex
colors disabled, not as a point collection with vertex colors. -/
theorem c4_stl_not_classified :
    stlPointCloudDecoders.stlParse (.bytes []) = .ok ⟨none, true⟩
    ∧ (loadFile stlPointCloudDecoders ⟨"scan.stl", .bytes []⟩ (.outer [])).result
        = .ok (Object3D.mesh "scan.stl" false false)
    ∧ Object3D.mesh "scan.stl" false false ≠ Object3D.points "scan.stl" true :=
  ⟨rfl, rfl, fun h => Object3D.noConfusion h⟩

/-- Witness for C4: an indexed, colored PLY geometry becomes a
double-sided mesh with vertex colors on. -/
theorem c4_geometry_classification_witness :
    (loadFile plyMeshDecoders ⟨"m.ply", .bytes []⟩ (.outer [])).result
      = .ok (Object3D.mesh "m.ply" true true) :=
  (c4_geometry_classification plyMeshDecoders ⟨"m.ply", .bytes []⟩ (.outer [])
      ⟨some [0, 1, 2], true⟩).1 rfl rfl

/-- Claim C5, confirmed.  Opening an archive scans the unzipped entry
table in listed order and dispatches the first entry whose extension is
supported, where the zip-internal extension set is exactly the
top-level set with zip removed; the recursive dispatch runs under the
fresh zip-scoped manager over the entry table, whatever manager the
outer call held; with no matching entry the load rejects with the
no-model-in-archive error. -/
theorem c5_zip_expansion (d : Decoders) (name : String)
    (entries : List (String × FileContent)) (mgr : Manager)
    (h : extOf name = "zip") :
    loadFile d ⟨name, .zipArchive entries⟩ mgr =
      (match entries.find? (fun pc => zipSupportedExtensions.contains (extOf pc.1)) with
       | some pc => loadFile d ⟨pc.1, pc.2⟩ (Manager.zipScoped entries)
       | none => ⟨.error .noModelInArchive, [], []⟩)
    ∧ ∀ s : String, s ∈ zipSupportedExtensions ↔ s ∈ supportedExtensions ∧ s ≠ "zip" := by
  constructor
  · show loadContent d name (.zipArchive entries) mgr = _
    rw [loadContent_ext_zip d name entries mgr h, loadFirstInZip_eq]
    cases entries.find? (fun pc => zipSupportedExtensions.contains (extOf pc.1)) <;> rfl
  · intro s
    constructor
    · intro hs
      fin_cases hs <;> exact ⟨by decide, by decide⟩
    · rintro ⟨hs, hz⟩
      fin_cases hs
      · decide
      · decide
      · decide
      · decide
      · decide
      · decide
      · exact absurd rfl hz

/-- Witness for C5 at the spec scenario: a bundle.zip holding
readme.txt and mesh/part.stl dispatches mesh/part.stl (the first and
only supported entry) under the fresh zip-scoped manager. -/
theorem c5_zip_expansion_witness :
    loadFile stlPointCloudDecoders ⟨"bundle.zip", .zipArchive bundleEntries⟩ (.outer []) =
      (match bundleEntries.find? (fun pc => zipSupportedExtensions.contains (extOf pc.1)) with
       | some pc => loadFile stlPointCloudDecoders ⟨pc.1, pc.2⟩ (Manager.zipScoped bundleEntries)
       | none => ⟨.error .noModelInArchive, [], []⟩)
    ∧ bundleEntries.find? (fun pc => zipSupportedExtensions.contains (extOf pc.1))
        = some ("mesh/part.stl", .bytes [4]) :=
  ⟨(c5_zip_expansion stlPointCloudDecoders "bundle.zip" bundleEntries (.outer []) rfl).1,
   rfl⟩

/-- Claim C6, corrected.  Every GLTF and GLB load instantiates the
DRACO and KTX2 transcoders; they are both disposed on the success path,
but the failure path is a bare reject: when the decoder fails, nothing
is released. -/
theorem c6_transcoder_release (d : Decoders) (f : MFile) (mgr : Manager)
    (h : extOf f.name = "glb" ∨ extOf f.name = "gltf") :
    (loadFile d f mgr).acquired = ["draco", "ktx2"]
    ∧ (∀ r : GltfResult, d.gltfParse f.content = .ok r →
        (loadFile d f mgr).released = ["draco", "ktx2"])
    ∧ (∀ m : String, d.gltfParse f.content = .error m →
        (loadFile d f mgr).released = []) := by
  have hg : loadFile d f mgr = loadGLTF d f.name f.content mgr := by
    rcases h with h | h
    · exact loadContent_ext_glb d f.name f.content mgr h
    · exact loadContent_ext_gltf d f.name f.content mgr h
  rw [hg]
  refine ⟨?_, ?_, ?_⟩
  · cases hr : d.gltfParse f.content with
    | ok r => rw [loadGLTF_ok d f.name f.content mgr r hr]
    | error m => rw [loadGLTF_err d f.name f.content mgr m hr]
  · intro r hr
    rw [loadGLTF_ok d f.name f.content mgr r hr]
  · intro m hm
    rw [loadGLTF_err d f.name f.content mgr m hm]

/-- Claim C6 counterexample: a failing GLB decode leaves both acquired
transcoders undisposed. -/
theorem c6_no_release_on_failure :
    (loadFile corruptGltfDecoders ⟨"m.glb", .bytes [0]⟩ (.outer [])).acquired
        = ["draco", "ktx2"]
    ∧ (loadFile corruptGltfDecoders ⟨"m.glb", .bytes [0]⟩ (.outer [])).released = []
    ∧ (loadFile corruptGltfDecoders ⟨"m.glb", .bytes [0]⟩ (.outer [])).result
        = .error (.decodeFailed "corrupt") :=
  ⟨rfl, rfl, rfl⟩

/-- Witness for C6: a successful GLB decode acquires and releases both
transcoders. -/
theorem c6_transcoder_release_witness :
    (loadFile okGltfDecoders ⟨"m.glb", .bytes []⟩ (.outer [])).acquired = ["draco", "ktx2"]
    ∧ (loadFile okGltfDecoders ⟨"m.glb", .bytes []⟩ (.outer [])).released = ["draco", "ktx2"] := by
  have h := c6_transcoder_release okGltfDecoders ⟨"m.glb", .bytes []⟩ (.outer []) (Or.inl rfl)
  exact ⟨h.1, h.2.1 ⟨[1]⟩ rfl⟩

/-- Claim C7, confirmed.  Primary-file selection returns the first file
in list order whose extension lies in the fixed supported set, every
earlier file having an unsupported extension; with no such file it
returns none; the extension is the lowercased final dot-segment of the
name, so selection is case-insensitive; and the supported set is
exactly stl, obj, ply, gltf, glb, fbx, zip. -/
theorem c7_primary_selection (files : List MFile) :
    (∀ f : MFile, primaryFile files = some f →
      ∃ i : Fin files.length, files.get i = f
        ∧ supportedExtensions.contains (extOf f.name) = true
        ∧ ∀ j : Fin files.length, j.val < i.val →
            supportedExtensions.contains (extOf (files.get j).name) = false)
    ∧ (primaryFile files = none →
        ∀ f ∈ files, supportedExtensions.contains (extOf f.name) = false)
    ∧ (∀ s : String, extOf ⟨s.data.map Char.toUpper⟩ = extOf s)
    ∧ supportedExtensions = ["stl", "obj", "ply", "gltf", "glb", "fbx", "zip"] := by
  refine ⟨?_, ?_, extOf_map_toUpper, rfl⟩
  · intro f hf
    exact find?_first_characterization _ files f hf
  · intro hn f hm
    have h := List.find?_eq_none.mp hn f hm
    simpa using h

/-- Witness for C7: with an unsupported file first, selection skips it
and picks the uppercased STL file. -/
theorem c7_primary_selection_witness :
    primaryFile mixedFiles = some ⟨"Model.STL", .bytes [8]⟩
    ∧ supportedExtensions.contains (extOf (MFile.mk "Model.STL" (.bytes [8])).name) = true := by
  obtain ⟨i, hget, hsup, hbefore⟩ :=
    (c7_primary_selection mixedFiles).1 ⟨"Model.STL", .bytes [8]⟩ rfl
  exact ⟨rfl, hsup⟩

/-- Claim C3, corrected.  Whenever the outcome is not success the
target scene is returned exactly as it was, and in particular a decode
failure after primary selection leaves it untouched; when at least one
file was dropped and none has a supported extension the call ends with
the no-supported-file notification and an unchanged scene.  (With zero
dropped files the call returns silently instead of alerting, which is
why the nonemptiness condition is required.) -/
theorem c3_failure_leaves_scene_untouched (d : Decoders) (files : List MFile)
    (fm : List (String × MFile)) (scene : List SceneChild) :
    ((loadModelWith d files fm scene).2 ≠ .success →
      (loadModelWith d files fm scene).1 = scene)
    ∧ (files ≠ [] →
        (∀ f ∈ files, supportedExtensions.contains (extOf f.name) = false) →
        loadModelWith d files fm scene = (scene, .noSupportedFile))
    ∧ (∀ e : LoadError, (loadModelWith d files fm scene).2 = .loadFailed e →
        (loadModelWith d files fm scene).1 = scene) := by
  by_cases h0 : files.length = 0
  · have hm : loadModelWith d files fm scene = (scene, .emptyInput) := by
      unfold loadModelWith
      rw [if_pos h0]
    rw [hm]
    refine ⟨fun _ => rfl, ?_, ?_⟩
    · intro hne _
      exact absurd (List.length_eq_zero.mp h0) hne
    · intro e he
      simp at he
  · have hw : loadModelWith d files fm scene
        = selectAndLoad d files (Manager.outer fm) scene := by
      unfold loadModelWith
      rw [if_neg h0]
    rw [hw]
    cases hp : primaryFile files with
    | none =>
      have hm : selectAndLoad d files (Manager.outer fm) scene
          = (scene, .noSupportedFile) := by
        unfold selectAndLoad
        rw [hp]
      rw [hm]
      exact ⟨fun _ => rfl, fun _ _ => rfl, fun e he => by simp at he⟩
    | some primary =>
      have hs : selectAndLoad d files (Manager.outer fm) scene
          = dispatchPrimary d primary (Manager.outer fm) scene := by
        unfold selectAndLoad
        rw [hp]
      rw [hs]
      cases hr : (loadFile d primary (Manager.outer fm)).result with
      | ok o =>
        have hm : dispatchPrimary d primary (Manager.outer fm) scene
            = (clearScene scene ++ [modelChild (normalizeModel o)], .success) := by
          unfold dispatchPrimary
          rw [hr]
        rw [hm]
        refine ⟨fun hns => absurd rfl hns, ?_, fun e he => by simp at he⟩
        intro hne hall
        have hnone : primaryFile files = none := by
          unfold primaryFile
          apply List.find?_eq_none.mpr
          intro f hf
          simpa using hall f hf
        rw [hp] at hnone
        exact absurd hnone (by simp)
      | error e2 =>
        have hm : dispatchPrimary d primary (Manager.outer fm) scene
            = (scene, .loadFailed e2) := by
          unfold dispatchPrimary
          rw [hr]
        rw [hm]
        refine ⟨fun _ => rfl, ?_, fun _ _ => rfl⟩
        intro hne hall
        have hnone : primaryFile files = none := by
          unfold primaryFile
          apply List.find?_eq_none.mpr
          intro f hf
          simpa using hall f hf
        rw [hp] at hnone
        exact absurd hnone (by simp)

/-- Claim C3 counterexample: with zero dropped files, no file has a
supported extension, yet the call returns silently with the empty-input
outcome rather than failing with the no-supported-file notification
(the scene is still untouched). -/
theorem c3_empty_drop_counterexample :
    loadModelFlat stlPointCloudDecoders [] demoScene = (demoScene, Outcome.emptyInput)
    ∧ Outcome.emptyInput ≠ Outcome.noSupportedFile :=
  ⟨rfl, fun h => Outcome.noConfusion h⟩

/-- Witness for C3 at the spec scenario: dropping only notes.txt fails
with the no-supported-file notification and leaves the scene exactly as
it was. -/
theorem c3_failure_witness :
    loadModelWith stlPointCloudDecoders [⟨"notes.txt", .bytes []⟩] [] demoScene
      = (demoScene, Outcome.noSupportedFile) := by
  refine (c3_failure_leaves_scene_untouched stlPointCloudDecoders
      [⟨"notes.txt", .bytes []⟩] [] demoScene).2.1 (by simp) ?_
  intro f hf
  rw [List.mem_singleton] at hf
  subst hf
  rfl

/-- Claim C8, confirmed.  When a load succeeds, the resulting scene is
exactly the prior children that are cameras, lights or axes helpers, in
order, followed by the single new normalized object: every prior helper
child survives, and every child of the new scene is either a surviving
prior helper or the inserted model child. -/
theorem c8_scene_swap (d : Decoders) (files : List MFile)
    (fm : List (String × MFile)) (scene : List SceneChild)
    (h : (loadModelWith d files fm scene).2 = .success) :
    ∃ o : Object3D,
      (loadModelWith d files fm scene).1
          = scene.filter isHelper ++ [modelChild (normalizeModel o)]
      ∧ (∀ ch ∈ scene, isHelper ch = true → ch ∈ (loadModelWith d files fm scene).1)
      ∧ ∀ ch ∈ (loadModelWith d files fm scene).1,
          (ch ∈ scene ∧ isHelper ch = true) ∨ ch = modelChild (normalizeModel o) := by
  by_cases h0 : files.length = 0
  · rw [show loadModelWith d files fm scene = (scene, .emptyInput) from by
      unfold loadModelWith; rw [if_pos h0]] at h
    simp at h
  · have hw : loadModelWith d files fm scene
        = selectAndLoad d files (Manager.outer fm) scene := by
      unfold loadModelWith
      rw [if_neg h0]
    rw [hw] at h ⊢
    cases hp : primaryFile files with
    | none =>
      rw [show selectAndLoad d files (Manager.outer fm) scene
          = (scene, .noSupportedFile) from by unfold selectAndLoad; rw [hp]] at h
      simp at h
    | some primary =>
      have hs : selectAndLoad d files (Manager.outer fm) scene
          = dispatchPrimary d primary (Manager.outer fm) scene := by
        unfold selectAndLoad
        rw [hp]
      rw [hs] at h ⊢
      cases hr : (loadFile d primary (Manager.outer fm)).result with
      | error e =>
        rw [show dispatchPrimary d primary (Manager.outer fm) scene
            = (scene, .loadFailed e) from by unfold dispatchPrimary; rw [hr]] at h
        simp at h
      | ok o =>
        have hd : dispatchPrimary d primary (Manager.outer fm) scene
            = (clearScene scene ++ [modelChild (normalizeModel o)], .success) := by
          unfold dispatchPrimary
          rw [hr]
        rw [hd]
        refine ⟨o, rfl, ?_, ?_⟩
        · intro ch hch hh
          exact List.mem_append_left _ (List.mem_filter.mpr ⟨hch, hh⟩)
        · intro ch hch
          rcases List.mem_append.mp hch with hin | hin
          · have h2 := List.mem_filter.mp hin
            exact Or.inl ⟨h2.1, h2.2⟩
          · right
            simpa using hin

/-- Witness for C8: a successful STL load over a scene holding a
camera, a light, an axes helper and a stale model child keeps the
camera child. -/
theorem c8_scene_swap_witness :
    (loadModelFlat stlPointCloudDecoders [⟨"part.stl", .bytes []⟩] demoScene).2 = .success
    ∧ cameraChild ∈ (loadModelFlat stlPointCloudDecoders [⟨"part.stl", .bytes []⟩] demoScene).1 := by
  have hsucc : (loadModelWith stlPointCloudDecoders [⟨"part.stl", .bytes []⟩]
      (createFilesMap [⟨"part.stl", .bytes []⟩]) demoScene).2 = .success := rfl
  obtain ⟨o, h1, h2, h3⟩ := c8_scene_swap stlPointCloudDecoders [⟨"part.stl", .bytes []⟩]
      (createFilesMap [⟨"part.stl", .bytes []⟩]) demoScene hsucc
  exact ⟨hsucc, h2 cameraChild (by simp [demoScene]) rfl⟩

/-- Claim C9, confirmed.  Flat aggregation builds a table whose lookup
at any name is the last file in input order carrying that name, and
whose key set is exactly the set of input file names. -/
theorem c9_createFilesMap (files : List MFile) (k : String) :
    lookupA (createFilesMap files) k
      = files.reverse.find? (fun f => f.name == k)
    ∧ (k ∈ mapKeys (createFilesMap files) ↔ k ∈ files.map MFile.name) := by
  have h1 : lookupA (createFilesMap files) k
      = (files.reverse.find? (fun f => f.name == k)).or
          (lookupA ([] : List (String × MFile)) k) :=
    createFilesMap_go files [] k
  rw [show lookupA ([] : List (String × MFile)) k = none from rfl, Option.or_none] at h1
  refine ⟨h1, ?_⟩
  constructor
  · intro hm
    obtain ⟨v, hv⟩ := (mem_mapKeys_iff_lookupA k (createFilesMap files)).mp hm
    rw [h1] at hv
    have hmem := List.mem_of_find?_eq_some hv
    have hp := List.find?_some hv
    rw [List.mem_reverse] at hmem
    exact List.mem_map.mpr ⟨v, hmem, by simpa using hp⟩
  · intro hm
    apply (mem_mapKeys_iff_lookupA k (createFilesMap files)).mpr
    rw [h1]
    obtain ⟨f, hf, hname⟩ := List.mem_map.mp hm
    have hsome : (files.reverse.find? (fun g => g.name == k)).isSome :=
      List.find?_isSome.mpr ⟨f, List.mem_reverse.mpr hf, by simp [hname]⟩
    obtain ⟨v, hv⟩ := Option.isSome_iff_exists.mp hsome
    exact ⟨v, hv⟩

/-- Witness for C9: two files named m.obj collapse to one key bound to
the later file. -/
theorem c9_createFilesMap_witness :
    lookupA (createFilesMap dupFiles) "m.obj"
      = dupFiles.reverse.find? (fun f => f.name == "m.obj")
    ∧ ("m.obj" ∈ mapKeys (createFilesMap dupFiles) ↔ "m.obj" ∈ dupFiles.map MFile.name) :=
  c9_createFilesMap dupFiles "m.obj"

/-- Claim C10, confirmed.  A flat drop of zero files returns
immediately with the silent empty-input outcome: no notification of any
kind (in particular not the no-supported-file alert) and the scene
exactly as it was. -/
theorem c10_empty_input_silent (d : Decoders) (scene : List SceneChild) :
    loadModelFlat d [] scene = (scene, Outcome.emptyInput)
    ∧ Outcome.emptyInput ≠ Outcome.noSupportedFile
    ∧ Outcome.emptyInput ≠ Outcome.success :=
  ⟨rfl, fun h => Outcome.noConfusion h, fun h => Outcome.noConfusion h⟩

end MV

namespace Agg

/-! ## Helper lemmas: the aggregation barrier -/

theorem onEntryHandled_of_eq (s : AggState) (h : s.itemsCount + 1 = s.itemsTotal) :
    onEntryHandled s =
      { s with itemsCount := s.itemsCount + 1,
               resolutions := s.resolutions
                 ++ [⟨s.itemsCount + 1, s.itemsTotal, s.filesMap⟩] } := by
  unfold onEntryHandled
  rw [if_pos h]

theorem onEntryHandled_of_lt (s : AggState) (h : s.itemsCount + 1 ≠ s.itemsTotal) :
    onEntryHandled s = { s with itemsCount := s.itemsCount + 1 } := by
  unfold onEntryHandled
  rw [if_neg h]

theorem taskWeight_pos (t : Task) : 1 ≤ taskWeight t := by
  cases t with
  | dirCallback children => exact Nat.le_add_right 1 (entryListWeight children)
  | fileCallback n p c => exact Nat.le_refl 1

theorem others_add_tasks :
    ∀ es : List Entry, othersCount es + (tasksOfEntries es).length = es.length := by
  intro es
  induction es with
  | nil => rfl
  | cons e es ih =>
    cases e with
    | dir children =>
      have h1 : othersCount (.dir children :: es) = othersCount es := rfl
      have h2 : (tasksOfEntries (.dir children :: es)).length
          = (tasksOfEntries es).length + 1 := rfl
      have h3 : (Entry.dir children :: es).length = es.length + 1 := rfl
      rw [h1, h2, h3]
      omega
    | file n p c =>
      have h1 : othersCount (.file n p c :: es) = othersCount es := rfl
      have h2 : (tasksOfEntries (.file n p c :: es)).length
          = (tasksOfEntries es).length + 1 := rfl
      have h3 : (Entry.file n p c :: es).length = es.length + 1 := rfl
      rw [h1, h2, h3]
      omega
    | other =>
      have h1 : othersCount (.other :: es) = othersCount es + 1 := rfl
      have h2 : tasksOfEntries (.other :: es) = tasksOfEntries es := rfl
      have h3 : (Entry.other :: es).length = es.length + 1 := rfl
      rw [h1, h2, h3]
      omega

theorem tasksOf_weight :
    ∀ es : List Entry, ((tasksOfEntries es).map taskWeight).sum = entryListWeight es := by
  intro es
  induction es with
  | nil => rfl
  | cons e es ih =>
    cases e with
    | dir children =>
      have h1 : ((tasksOfEntries (.dir children :: es)).map taskWeight).sum
          = (1 + entryListWeight children) + ((tasksOfEntries es).map taskWeight).sum := rfl
      have h2 : entryListWeight (.dir children :: es)
          = (1 + entryListWeight children) + entryListWeight es := rfl
      rw [h1, h2, ih]
    | file n p c =>
      have h1 : ((tasksOfEntries (.file n p c :: es)).map taskWeight).sum
          = 1 + ((tasksOfEntries es).map taskWeight).sum := rfl
      have h2 : entryListWeight (.file n p c :: es) = 1 + entryListWeight es := rfl
      rw [h1, h2, ih]
    | other =>
      have h1 : tasksOfEntries (.other :: es) = tasksOfEntries es := rfl
      have h2 : entryListWeight (.other :: es) = 0 + entryListWeight es := rfl
      rw [h1, h2, Nat.zero_add, ih]

theorem paths_tasksOf :
    ∀ (es : List Entry) (q : String), q ∈ entryListPaths es →
      ∃ t ∈ tasksOfEntries es, q ∈ taskPaths t := by
  intro es
  induction es with
  | nil =>
    intro q h
    exact absurd (show q ∈ ([] : List String) from h) (List.not_mem_nil q)
  | cons e es ih =>
    intro q h
    have hsplit : q ∈ entryPaths e ∨ q ∈ entryListPaths es := by
      have he : entryListPaths (e :: es) = entryPaths e ++ entryListPaths es := rfl
      rw [he] at h
      exact List.mem_append.mp h
    rcases hsplit with h1 | h1
    · cases e with
      | dir children =>
        refine ⟨.dirCallback children, ?_, h1⟩
        have ht : tasksOfEntries (.dir children :: es)
            = .dirCallback children :: tasksOfEntries es := rfl
        rw [ht]
        exact List.mem_cons_self _ _
      | file n p c =>
        refine ⟨.fileCallback n p c, ?_, h1⟩
        have ht : tasksOfEntries (.file n p c :: es)
            = .fileCallback n p c :: tasksOfEntries es := rfl
        rw [ht]
        exact List.mem_cons_self _ _
      | other =>
        exact absurd (show q ∈ ([] : List String) from h1) (List.not_mem_nil q)
    · obtain ⟨t, ht, hq⟩ := ih q h1
      refine ⟨t, ?_, hq⟩
      cases e with
      | dir children =>
        have he : tasksOfEntries (.dir children :: es)
            = .dirCallback children :: tasksOfEntries es := rfl
        rw [he]
        exact List.mem_cons_of_mem _ ht
      | file n p c =>
        have he : tasksOfEntries (.file n p c :: es)
            = .fileCallback n p c :: tasksOfEntries es := rfl
        rw [he]
        exact List.mem_cons_of_mem _ ht
      | other =>
        have he : tasksOfEntries (.other :: es) = tasksOfEntries es := rfl
        rw [he]
        exact ht

theorem sum_map_eraseIdx {α : Type} (f : α → Nat) :
    ∀ (l : List α) (k : Nat) (hk : k < l.length),
      ((l.eraseIdx k).map f).sum + f (l.get ⟨k, hk⟩) = (l.map f).sum := by
  intro l
  induction l with
  | nil => intro k hk; exact absurd hk (Nat.not_lt_zero k)
  | cons a as ih =>
    intro k hk
    cases k with
    | zero =>
      have hg : (a :: as).get ⟨0, hk⟩ = a := rfl
      have he : (a :: as).eraseIdx 0 = as := rfl
      have hm : ((a :: as).map f).sum = f a + (as.map f).sum := rfl
      rw [hg, he, hm]
      omega
    | succ k2 =>
      have hk2 : k2 < as.length := Nat.lt_of_succ_lt_succ hk
      have hrec := ih k2 hk2
      have hg : (a :: as).get ⟨k2 + 1, hk⟩ = as.get ⟨k2, hk2⟩ := rfl
      have he : (a :: as).eraseIdx (k2 + 1) = a :: as.eraseIdx k2 := rfl
      have hm : ((a :: as).map f).sum = f a + (as.map f).sum := rfl
      have hm2 : (((a :: as.eraseIdx k2)).map f).sum = f a + ((as.eraseIdx k2).map f).sum := rfl
      rw [hg, he, hm, hm2]
      omega

theorem mem_eraseIdx_or {α : Type} :
    ∀ (l : List α) (k : Nat) (hk : k < l.length) (x : α), x ∈ l →
      x ∈ l.eraseIdx k ∨ x = l.get ⟨k, hk⟩ := by
  intro l
  induction l with
  | nil => intro k hk; exact absurd hk (Nat.not_lt_zero k)
  | cons a as ih =>
    intro k hk x hx
    cases k with
    | zero =>
      rcases List.mem_cons.mp hx with h | h
      · exact Or.inr h
      · exact Or.inl h
    | succ k2 =>
      have hk2 : k2 < as.length := Nat.lt_of_succ_lt_succ hk
      rcases List.mem_cons.mp hx with h | h
      · subst h
        exact Or.inl (List.mem_cons_self _ _)
      · rcases ih k2 hk2 x h with h2 | h2
        · exact Or.inl (List.mem_cons_of_mem _ h2)
        · exact Or.inr h2

theorem processEntries_strict (es : List Entry) :
    ∀ s : AggState, s.itemsCount < s.itemsTotal →
      (processEntries s es).itemsTotal = s.itemsTotal + es.length
      ∧ (processEntries s es).itemsCount = s.itemsCount + othersCount es
      ∧ (processEntries s es).pending = s.pending ++ tasksOfEntries es
      ∧ (processEntries s es).filesMap = s.filesMap
      ∧ (processEntries s es).files = s.files
      ∧ (processEntries s es).resolutions = s.resolutions := by
  induction es with
  | nil =>
    intro s h
    refine ⟨?_, ?_, ?_, rfl, rfl, rfl⟩
    · rfl
    · rfl
    · exact (List.append_nil s.pending).symm
  | cons e es ih =>
    intro s h
    have hstep : processEntries s (e :: es) = processEntries (handleEntry s e) es := rfl
    rw [hstep]
    obtain ⟨count, total, fls, fm, pending, res⟩ := s
    have hcs : (⟨count, total, fls, fm, pending, res⟩ : AggState).itemsCount = count := rfl
    have hts : (⟨count, total, fls, fm, pending, res⟩ : AggState).itemsTotal = total := rfl
    rw [hcs, hts] at h
    cases e with
    | dir children =>
      have hh : handleEntry ⟨count, total, fls, fm, pending, res⟩ (.dir children)
          = ⟨count, total + 1, fls, fm, pending ++ [.dirCallback children], res⟩ := rfl
      rw [hh]
      have hlt : (⟨count, total + 1, fls, fm,
          pending ++ [.dirCallback children], res⟩ : AggState).itemsCount
          < (⟨count, total + 1, fls, fm,
          pending ++ [.dirCallback children], res⟩ : AggState).itemsTotal := by
        show count < total + 1
        omega
      obtain ⟨h1, h2, h3, h4, h5, h6⟩ := ih _ hlt
      refine ⟨?_, ?_, ?_, h4, h5, h6⟩
      · rw [h1]
        have hll : (Entry.dir children :: es).length = es.length + 1 := rfl
        rw [hll]
        show total + 1 + es.length = total + (es.length + 1)
        omega
      · rw [h2]
        have ho : othersCount (.dir children :: es) = othersCount es := rfl
        rw [ho]
      · rw [h3]
        have htk : tasksOfEntries (.dir children :: es)
            = .dirCallback children :: tasksOfEntries es := rfl
        rw [htk]
        show pending ++ [.dirCallback children] ++ tasksOfEntries es
            = pending ++ (Task.dirCallback children :: tasksOfEntries es)
        rw [List.append_assoc]
        rfl
    | file n p c =>
      have hh : handleEntry ⟨count, total, fls, fm, pending, res⟩ (.file n p c)
          = ⟨count, total + 1, fls, fm, pending ++ [.fileCallback n p c], res⟩ := rfl
      rw [hh]
      have hlt : (⟨count, total + 1, fls, fm,
          pending ++ [.fileCallback n p c], res⟩ : AggState).itemsCount
          < (⟨count, total + 1, fls, fm,
          pending ++ [.fileCallback n p c], res⟩ : AggState).itemsTotal := by
        show count < total + 1
        omega
      obtain ⟨h1, h2, h3, h4, h5, h6⟩ := ih _ hlt
      refine ⟨?_, ?_, ?_, h4, h5, h6⟩
      · rw [h1]
        have hll : (Entry.file n p c :: es).length = es.length + 1 := rfl
        rw [hll]
        show total + 1 + es.length = total + (es.length + 1)
        omega
      · rw [h2]
        have ho : othersCount (.file n p c :: es) = othersCount es := rfl
        rw [ho]
      · rw [h3]
        have htk : tasksOfEntries (.file n p c :: es)
            = .fileCallback n p c :: tasksOfEntries es := rfl
        rw [htk]
        show pending ++ [.fileCallback n p c] ++ tasksOfEntries es
            = pending ++ (Task.fileCallback n p c :: tasksOfEntries es)
        rw [List.append_assoc]
        rfl
    | other =>
      have hne : (⟨count, total + 1, fls, fm, pending, res⟩ : AggState).itemsCount + 1
          ≠ (⟨count, total + 1, fls, fm, pending, res⟩ : AggState).itemsTotal := by
        show count + 1 ≠ total + 1
        omega
      have hh : handleEntry ⟨count, total, fls, fm, pending, res⟩ .other
          = ⟨count + 1, total + 1, fls, fm, pending, res⟩ := by
        show onEntryHandled ⟨count, total + 1, fls, fm, pending, res⟩ = _
        rw [onEntryHandled_of_lt _ hne]
      rw [hh]
      have hlt : (⟨count + 1, total + 1, fls, fm, pending, res⟩ : AggState).itemsCount
          < (⟨count + 1, total + 1, fls, fm, pending, res⟩ : AggState).itemsTotal := by
        show count + 1 < total + 1
        omega
      obtain ⟨h1, h2, h3, h4, h5, h6⟩ := ih _ hlt
      refine ⟨?_, ?_, ?_, h4, h5, h6⟩
      · rw [h1]
        have hll : (Entry.other :: es).length = es.length + 1 := rfl
        rw [hll]
        show total + 1 + es.length = total + (es.length + 1)
        omega
      · rw [h2]
        have ho : othersCount (.other :: es) = othersCount es + 1 := rfl
        rw [ho]
        show count + 1 + othersCount es = count + (othersCount es + 1)
        omega
      · rw [h3]
        have htk : tasksOfEntries (.other :: es) = tasksOfEntries es := rfl
        rw [htk]

end Agg

namespace Agg

/-- Running a file callback from a state owing the callback itself
(the counter gap exceeds the queue length by one) reestablishes the
barrier invariant and performs exactly one unit of work. -/
theorem runTask_file_preserves (paths : List String)
    (count total : Nat) (fls fm : List (String × Nat)) (pending : List Task)
    (n p : String) (c : Nat)
    (hA : total = count + (pending.length + 1))
    (hcov : ∀ q ∈ paths, q ∈ MV.mapKeys fm ∨ q = p ∨ ∃ u ∈ pending, q ∈ taskPaths u) :
    AggInv paths (runTask ⟨count, total, fls, fm, pending, []⟩ (.fileCallback n p c))
    ∧ pendingWeight (runTask ⟨count, total, fls, fm, pending, []⟩ (.fileCallback n p c)) + 1
        = pendingWeight ⟨count, total, fls, fm, pending, []⟩
          + taskWeight (.fileCallback n p c) := by
  have hrt : runTask ⟨count, total, fls, fm, pending, []⟩ (.fileCallback n p c)
      = onEntryHandled ⟨count, total, fls ++ [(n, c)], MV.assocSet fm p c, pending, []⟩ := rfl
  rw [hrt]
  by_cases hnil : pending = []
  · subst hnil
    have hA' : total = count + 1 := by simpa using hA
    have hfire : (⟨count, total, fls ++ [(n, c)], MV.assocSet fm p c, [], []⟩
        : AggState).itemsCount + 1
        = (⟨count, total, fls ++ [(n, c)], MV.assocSet fm p c, [], []⟩
        : AggState).itemsTotal := by
      show count + 1 = total
      omega
    rw [onEntryHandled_of_eq _ hfire]
    refine ⟨⟨?_, fun _ => rfl, ?_, ?_⟩, rfl⟩
    · show total = count + 1 + 0
      omega
    · intro hne
      exact absurd rfl hne
    · intro q hq
      rcases hcov q hq with hx | hx | hx
      · exact Or.inl (MV.mem_mapKeys_of_mem q p c fm hx)
      · subst hx
        exact Or.inl (MV.mem_mapKeys_assocSet_self q c fm)
      · obtain ⟨u, hu, _⟩ := hx
        exact absurd hu (List.not_mem_nil u)
  · have hlen : 1 ≤ pending.length := by
      cases hp0 : pending with
      | nil => exact absurd hp0 hnil
      | cons a as => exact Nat.succ_pos as.length
    have hnf : (⟨count, total, fls ++ [(n, c)], MV.assocSet fm p c, pending, []⟩
        : AggState).itemsCount + 1
        ≠ (⟨count, total, fls ++ [(n, c)], MV.assocSet fm p c, pending, []⟩
        : AggState).itemsTotal := by
      show count + 1 ≠ total
      omega
    rw [onEntryHandled_of_lt _ hnf]
    refine ⟨⟨?_, ?_, fun _ => rfl, ?_⟩, rfl⟩
    · show total = count + 1 + pending.length
      omega
    · intro h0
      exact absurd h0 hnil
    · intro q hq
      rcases hcov q hq with hx | hx | hx
      · exact Or.inl (MV.mem_mapKeys_of_mem q p c fm hx)
      · subst hx
        exact Or.inl (MV.mem_mapKeys_assocSet_self q c fm)
      · obtain ⟨u, hu, hqu⟩ := hx
        exact Or.inr ⟨u, hu, hqu⟩

/-- Running a directory callback from a state owing the callback itself
reestablishes the barrier invariant and performs exactly one unit of
work net of the children it schedules. -/
theorem runTask_dir_preserves (paths : List String)
    (count total : Nat) (fls fm : List (String × Nat)) (pending : List Task)
    (children : List Entry)
    (hA : total = count + (pending.length + 1))
    (hcov : ∀ q ∈ paths, q ∈ MV.mapKeys fm ∨ q ∈ entryListPaths children
        ∨ ∃ u ∈ pending, q ∈ taskPaths u) :
    AggInv paths (runTask ⟨count, total, fls, fm, pending, []⟩ (.dirCallback children))
    ∧ pendingWeight (runTask ⟨count, total, fls, fm, pending, []⟩ (.dirCallback children)) + 1
        = pendingWeight ⟨count, total, fls, fm, pending, []⟩
          + taskWeight (.dirCallback children) := by
  have hrt : runTask ⟨count, total, fls, fm, pending, []⟩ (.dirCallback children)
      = onEntryHandled (processEntries ⟨count, total, fls, fm, pending, []⟩ children) := rfl
  have hlt : (⟨count, total, fls, fm, pending, []⟩ : AggState).itemsCount
      < (⟨count, total, fls, fm, pending, []⟩ : AggState).itemsTotal := by
    show count < total
    omega
  obtain ⟨h1, h2, h3, h4, h5, h6⟩ :=
    processEntries_strict children ⟨count, total, fls, fm, pending, []⟩ hlt
  set s2 := processEntries ⟨count, total, fls, fm, pending, []⟩ children with hs2
  have h1' : s2.itemsTotal = total + children.length := h1
  have h2' : s2.itemsCount = count + othersCount children := h2
  have h3' : s2.pending = pending ++ tasksOfEntries children := h3
  have h4' : s2.filesMap = fm := h4
  have h6' : s2.resolutions = [] := h6
  have hoat := others_add_tasks children
  rw [hrt]
  by_cases hm : pending.length + (tasksOfEntries children).length = 0
  · have hpnil : pending = [] := List.length_eq_zero.mp (by omega)
    have htnil : tasksOfEntries children = [] := List.length_eq_zero.mp (by omega)
    have hE : entryListWeight children = 0 := by
      have hw := tasksOf_weight children
      rw [htnil] at hw
      simpa using hw.symm
    have hfire : s2.itemsCount + 1 = s2.itemsTotal := by
      rw [h1', h2']
      omega
    rw [onEntryHandled_of_eq s2 hfire]
    have hp2 : s2.pending = [] := by
      rw [h3', hpnil, htnil]
      rfl
    constructor
    · refine ⟨?_, ?_, ?_, ?_⟩
      · show s2.itemsTotal = (s2.itemsCount + 1) + s2.pending.length
        have hl0 : s2.pending.length = 0 := by rw [hp2]; rfl
        rw [h1', h2', hl0]
        omega
      · intro _
        show s2.resolutions ++ [⟨s2.itemsCount + 1, s2.itemsTotal, s2.filesMap⟩]
            = [⟨s2.itemsCount + 1, s2.itemsTotal, s2.filesMap⟩]
        rw [h6']
        rfl
      · intro hne
        exact absurd hp2 hne
      · intro q hq
        show q ∈ MV.mapKeys s2.filesMap ∨ ∃ t ∈ s2.pending, q ∈ taskPaths t
        rw [h4', hp2]
        rcases hcov q hq with hx | hx | hx
        · exact Or.inl hx
        · obtain ⟨t, ht, _⟩ := paths_tasksOf children q hx
          rw [htnil] at ht
          exact absurd ht (List.not_mem_nil t)
        · obtain ⟨u, hu, _⟩ := hx
          rw [hpnil] at hu
          exact absurd hu (List.not_mem_nil u)
    · show (s2.pending.map taskWeight).sum + 1
          = (pending.map taskWeight).sum + (1 + entryListWeight children)
      rw [hp2, hpnil, hE]
  · have hnf : s2.itemsCount + 1 ≠ s2.itemsTotal := by
      rw [h1', h2']
      omega
    rw [onEntryHandled_of_lt s2 hnf]
    have hlen2 : s2.pending.length = pending.length + (tasksOfEntries children).length := by
      rw [h3']
      exact List.length_append _ _
    have hpne : s2.pending ≠ [] := by
      intro h0
      rw [h0] at hlen2
      simp at hlen2
      omega
    constructor
    · refine ⟨?_, ?_, ?_, ?_⟩
      · show s2.itemsTotal = (s2.itemsCount + 1) + s2.pending.length
        rw [h1', h2', hlen2]
        omega
      · intro h0
        exact absurd h0 hpne
      · intro _
        show s2.resolutions = []
        exact h6'
      · intro q hq
        show q ∈ MV.mapKeys s2.filesMap ∨ ∃ t ∈ s2.pending, q ∈ taskPaths t
        rw [h4', h3']
        rcases hcov q hq with hx | hx | hx
        · exact Or.inl hx
        · obtain ⟨t, ht, hqt⟩ := paths_tasksOf children q hx
          exact Or.inr ⟨t, List.mem_append_right _ ht, hqt⟩
        · obtain ⟨u, hu, hqu⟩ := hx
          exact Or.inr ⟨u, List.mem_append_left _ hu, hqu⟩
    · show (s2.pending.map taskWeight).sum + 1
          = (pending.map taskWeight).sum + (1 + entryListWeight children)
      rw [h3', List.map_append, List.sum_append, tasksOf_weight]
      omega

end Agg

namespace Agg

/-- One event-loop step preserves the barrier invariant; with callbacks
pending it performs exactly one unit of work, and with nothing pending
it is the identity. -/
theorem stepAgg_preserves (paths : List String) (s : AggState) (i : Nat)
    (hinv : AggInv paths s) :
    AggInv paths (stepAgg s i)
    ∧ (s.pending ≠ [] → pendingWeight (stepAgg s i) + 1 = pendingWeight s)
    ∧ (s.pending = [] → stepAgg s i = s) := by
  obtain ⟨count, total, fls, fm, pending, res⟩ := s
  obtain ⟨hA, hB, hC, hcov⟩ := hinv
  cases pending with
  | nil =>
    exact ⟨⟨hA, hB, hC, hcov⟩, fun hne => absurd rfl hne, fun _ => rfl⟩
  | cons t rest =>
    have hres : res = [] := hC (List.cons_ne_nil t rest)
    subst hres
    have hA' : total = count + (t :: rest).length := hA
    have hk : i % (t :: rest).length < (t :: rest).length :=
      Nat.mod_lt _ (Nat.succ_pos rest.length)
    have hstep : stepAgg ⟨count, total, fls, fm, t :: rest, []⟩ i
        = runTask ⟨count, total, fls, fm,
            (t :: rest).eraseIdx (i % (t :: rest).length), []⟩
          ((t :: rest).get ⟨i % (t :: rest).length, hk⟩) := rfl
    rw [hstep]
    have hlen : ((t :: rest).eraseIdx (i % (t :: rest).length)).length
        = (t :: rest).length - 1 := List.length_eraseIdx_of_lt hk
    have hl1 : (t :: rest).length = rest.length + 1 := rfl
    have hA2 : total = count
        + (((t :: rest).eraseIdx (i % (t :: rest).length)).length + 1) := by
      rw [hlen]
      omega
    have hsum := sum_map_eraseIdx taskWeight (t :: rest) (i % (t :: rest).length) hk
    cases htk : (t :: rest).get ⟨i % (t :: rest).length, hk⟩ with
    | fileCallback n p c =>
      have hcov2 : ∀ q ∈ paths, q ∈ MV.mapKeys fm ∨ q = p
          ∨ ∃ u ∈ (t :: rest).eraseIdx (i % (t :: rest).length), q ∈ taskPaths u := by
        intro q hq
        rcases hcov q hq with hx | ⟨u, hu, hqu⟩
        · exact Or.inl hx
        · rcases mem_eraseIdx_or (t :: rest) (i % (t :: rest).length) hk u hu with h2 | h2
          · exact Or.inr (Or.inr ⟨u, h2, hqu⟩)
          · rw [h2, htk] at hqu
            exact Or.inr (Or.inl (List.mem_singleton.mp hqu))
      obtain ⟨hinv2, hw2⟩ := runTask_file_preserves paths count total fls fm
          ((t :: rest).eraseIdx (i % (t :: rest).length)) n p c hA2 hcov2
      refine ⟨hinv2, ?_, ?_⟩
      · intro _
        rw [htk] at hsum
        have e1 : pendingWeight ⟨count, total, fls, fm,
            (t :: rest).eraseIdx (i % (t :: rest).length), []⟩
            = (((t :: rest).eraseIdx (i % (t :: rest).length)).map taskWeight).sum := rfl
        have e2 : pendingWeight ⟨count, total, fls, fm, t :: rest, []⟩
            = ((t :: rest).map taskWeight).sum := rfl
        have e3 : taskWeight (Task.fileCallback n p c) = 1 := rfl
        rw [e1, e3] at hw2
        rw [e3] at hsum
        rw [e2]
        omega
      · intro h0
        exact absurd h0 (List.cons_ne_nil t rest)
    | dirCallback children =>
      have hcov2 : ∀ q ∈ paths, q ∈ MV.mapKeys fm ∨ q ∈ entryListPaths children
          ∨ ∃ u ∈ (t :: rest).eraseIdx (i % (t :: rest).length), q ∈ taskPaths u := by
        intro q hq
        rcases hcov q hq with hx | ⟨u, hu, hqu⟩
        · exact Or.inl hx
        · rcases mem_eraseIdx_or (t :: rest) (i % (t :: rest).length) hk u hu with h2 | h2
          · exact Or.inr (Or.inr ⟨u, h2, hqu⟩)
          · rw [h2, htk] at hqu
            exact Or.inr (Or.inl hqu)
      obtain ⟨hinv2, hw2⟩ := runTask_dir_preserves paths count total fls fm
          ((t :: rest).eraseIdx (i % (t :: rest).length)) children hA2 hcov2
      refine ⟨hinv2, ?_, ?_⟩
      · intro _
        rw [htk] at hsum
        have e1 : pendingWeight ⟨count, total, fls, fm,
            (t :: rest).eraseIdx (i % (t :: rest).length), []⟩
            = (((t :: rest).eraseIdx (i % (t :: rest).length)).map taskWeight).sum := rfl
        have e2 : pendingWeight ⟨count, total, fls, fm, t :: rest, []⟩
            = ((t :: rest).map taskWeight).sum := rfl
        have e3 : taskWeight (Task.dirCallback children) = 1 + entryListWeight children := rfl
        rw [e1, e3] at hw2
        rw [e3] at hsum
        rw [e2]
        omega
      · intro h0
        exact absurd h0 (List.cons_ne_nil t rest)

/-- Any schedule preserves the barrier invariant. -/
theorem runAgg_inv (paths : List String) (sched : List Nat) :
    ∀ s : AggState, AggInv paths s → AggInv paths (runAgg s sched) := by
  induction sched with
  | nil => exact fun s h => h
  | cons i rest ih =>
    intro s h
    exact ih (stepAgg s i) (stepAgg_preserves paths s i h).1

/-- A schedule at least as long as the remaining work drains the
pending queue. -/
theorem runAgg_complete (paths : List String) (sched : List Nat) :
    ∀ s : AggState, AggInv paths s → pendingWeight s ≤ sched.length →
      (runAgg s sched).pending = [] := by
  induction sched with
  | nil =>
    intro s hinv hw
    have h0 : pendingWeight s = 0 := Nat.le_zero.mp hw
    cases hpend : s.pending with
    | nil => exact hpend
    | cons t rest =>
      exfalso
      have h1 : pendingWeight s = taskWeight t + ((rest.map taskWeight).sum) := by
        unfold pendingWeight
        rw [hpend]
        rfl
      have h2 := taskWeight_pos t
      omega
  | cons i restS ih =>
    intro s hinv hw
    obtain ⟨hinv2, hwt, hid⟩ := stepAgg_preserves paths s i hinv
    show (runAgg (stepAgg s i) restS).pending = []
    cases hpend : s.pending with
    | nil =>
      rw [hid hpend]
      have hw0 : pendingWeight s = 0 := by
        unfold pendingWeight
        rw [hpend]
        rfl
      exact ih s hinv (by omega)
    | cons t rest =>
      have hne : s.pending ≠ [] := by
        rw [hpend]
        exact List.cons_ne_nil t rest
      have hdec := hwt hne
      have hl : (i :: restS).length = restS.length + 1 := rfl
      rw [hl] at hw
      exact ih (stepAgg s i) hinv2 (by omega)

/-- The synchronous start establishes the barrier invariant whenever
the first top-level entry is a directory or a file, and leaves exactly
the weight of the whole tree as pending work. -/
theorem startAgg_inv (items : List Entry) (hfirst : firstFileOrDir items) :
    AggInv (entryListPaths items) (startAgg items)
    ∧ pendingWeight (startAgg items) = entryListWeight items := by
  cases items with
  | nil => exact absurd hfirst (fun h => h)
  | cons e rest =>
    cases e with
    | other => exact absurd hfirst (fun h => h)
    | dir children =>
      have h1 : startAgg (.dir children :: rest)
          = processEntries ⟨0, 1, [], [], [.dirCallback children], []⟩ rest := rfl
      have hlt : (⟨0, 1, [], [], [.dirCallback children], []⟩ : AggState).itemsCount
          < (⟨0, 1, [], [], [.dirCallback children], []⟩ : AggState).itemsTotal :=
        Nat.zero_lt_one
      obtain ⟨hT, hc, hp, hfm, hfl, hres⟩ := processEntries_strict rest _ hlt
      rw [h1]
      set s2 := processEntries ⟨0, 1, [], [], [.dirCallback children], []⟩ rest with hs2
      have hT' : s2.itemsTotal = 1 + rest.length := hT
      have hc' : s2.itemsCount = 0 + othersCount rest := hc
      have hp' : s2.pending = [Task.dirCallback children] ++ tasksOfEntries rest := hp
      have hfm' : s2.filesMap = [] := hfm
      have hres' : s2.resolutions = [] := hres
      have hoat := others_add_tasks rest
      have hpne : s2.pending ≠ [] := by
        rw [hp']
        exact List.cons_ne_nil _ _
      refine ⟨⟨?_, ?_, ?_, ?_⟩, ?_⟩
      · show s2.itemsTotal = s2.itemsCount + s2.pending.length
        have hl2 : s2.pending.length = 1 + (tasksOfEntries rest).length := by
          rw [hp']
          exact List.length_append _ _
        rw [hT', hc', hl2]
        omega
      · intro h0
        exact absurd h0 hpne
      · intro _
        exact hres'
      · intro q hq
        show q ∈ MV.mapKeys s2.filesMap ∨ ∃ t ∈ s2.pending, q ∈ taskPaths t
        rw [hfm', hp']
        have hsplit : q ∈ entryListPaths children ∨ q ∈ entryListPaths rest := by
          have he : entryListPaths (Entry.dir children :: rest)
              = entryListPaths children ++ entryListPaths rest := rfl
          rw [he] at hq
          exact List.mem_append.mp hq
        rcases hsplit with hx | hx
        · exact Or.inr ⟨.dirCallback children, List.mem_append_left _ (List.mem_cons_self _ _), hx⟩
        · obtain ⟨t, ht, hqt⟩ := paths_tasksOf rest q hx
          exact Or.inr ⟨t, List.mem_append_right _ ht, hqt⟩
      · show (s2.pending.map taskWeight).sum = entryListWeight (.dir children :: rest)
        rw [hp', List.map_append, List.sum_append, tasksOf_weight]
        have he : entryListWeight (Entry.dir children :: rest)
            = (1 + entryListWeight children) + entryListWeight rest := rfl
        have hw1 : (([Task.dirCallback children]).map taskWeight).sum
            = 1 + entryListWeight children := by
          show (1 + entryListWeight children) + 0 = 1 + entryListWeight children
          omega
        rw [he, hw1]
    | file n p c =>
      have h1 : startAgg (.file n p c :: rest)
          = processEntries ⟨0, 1, [], [], [.fileCallback n p c], []⟩ rest := rfl
      have hlt : (⟨0, 1, [], [], [.fileCallback n p c], []⟩ : AggState).itemsCount
          < (⟨0, 1, [], [], [.fileCallback n p c], []⟩ : AggState).itemsTotal :=
        Nat.zero_lt_one
      obtain ⟨hT, hc, hp, hfm, hfl, hres⟩ := processEntries_strict rest _ hlt
      rw [h1]
      set s2 := processEntries ⟨0, 1, [], [], [.fileCallback n p c], []⟩ rest with hs2
      have hT' : s2.itemsTotal = 1 + rest.length := hT
      have hc' : s2.itemsCount = 0 + othersCount rest := hc
      have hp' : s2.pending = [Task.fileCallback n p c] ++ tasksOfEntries rest := hp
      have hfm' : s2.filesMap = [] := hfm
      have hres' : s2.resolutions = [] := hres
      have hoat := others_add_tasks rest
      have hpne : s2.pending ≠ [] := by
        rw [hp']
        exact List.cons_ne_nil _ _
      refine ⟨⟨?_, ?_, ?_, ?_⟩, ?_⟩
      · show s2.itemsTotal = s2.itemsCount + s2.pending.length
        have hl2 : s2.pending.length = 1 + (tasksOfEntries rest).length := by
          rw [hp']
          exact List.length_append _ _
        rw [hT', hc', hl2]
        omega
      · intro h0
        exact absurd h0 hpne
      · intro _
        exact hres'
      · intro q hq
        show q ∈ MV.mapKeys s2.filesMap ∨ ∃ t ∈ s2.pending, q ∈ taskPaths t
        rw [hfm', hp']
        have hsplit : q ∈ ([p] : List String) ∨ q ∈ entryListPaths rest := by
          have he : entryListPaths (Entry.file n p c :: rest)
              = [p] ++ entryListPaths rest := rfl
          rw [he] at hq
          exact List.mem_append.mp hq
        rcases hsplit with hx | hx
        · exact Or.inr ⟨.fileCallback n p c, List.mem_append_left _ (List.mem_cons_self _ _), hx⟩
        · obtain ⟨t, ht, hqt⟩ := paths_tasksOf rest q hx
          exact Or.inr ⟨t, List.mem_append_right _ ht, hqt⟩
      · show (s2.pending.map taskWeight).sum = entryListWeight (.file n p c :: rest)
        rw [hp', List.map_append, List.sum_append, tasksOf_weight]
        have he : entryListWeight (Entry.file n p c :: rest)
            = 1 + entryListWeight rest := rfl
        have hw1 : (([Task.fileCallback n p c]).map taskWeight).sum = 1 := by
          show 1 + 0 = 1
          omega
        rw [he, hw1]

/-- Claim C1, corrected.  For every drop whose item list is nonempty
and begins with a directory or file entry, and for every event-loop
schedule long enough to run all dynamically discovered callbacks, the
barrier resolves exactly once, with the two counters equal at the
resolution, and the resolution snapshot already contains every file
path of the dropped tree in its files map.  (The input condition is
required: a drop beginning with an entry that is neither a file nor a
directory resolves prematurely through the synchronous else branch, and
an empty item list never resolves at all.) -/
theorem c1_aggregation_barrier (items : List Entry) (sched : List Nat)
    (hfirst : firstFileOrDir items)
    (hsched : entryListWeight items ≤ sched.length) :
    (getFilesFromItemList items sched).pending = []
    ∧ (getFilesFromItemList items sched).resolutions.length = 1
    ∧ ∀ r ∈ (getFilesFromItemList items sched).resolutions,
        r.count = r.total
        ∧ ∀ p ∈ entryListPaths items, p ∈ MV.mapKeys r.filesMap := by
  obtain ⟨hinv0, hw0⟩ := startAgg_inv items hfirst
  have hinv := runAgg_inv (entryListPaths items) sched (startAgg items) hinv0
  have hdone := runAgg_complete (entryListPaths items) sched (startAgg items) hinv0
      (by rw [hw0]; exact hsched)
  obtain ⟨hA, hB, hC, hcov⟩ := hinv
  have hres := hB hdone
  have hg : getFilesFromItemList items sched = runAgg (startAgg items) sched := rfl
  rw [hg]
  refine ⟨hdone, ?_, ?_⟩
  · rw [hres]
    rfl
  · intro r hr
    rw [hres, List.mem_singleton] at hr
    subst hr
    constructor
    · show (runAgg (startAgg items) sched).itemsCount
          = (runAgg (startAgg items) sched).itemsTotal
      have h2 : (runAgg (startAgg items) sched).pending.length = 0 := by
        rw [hdone]
        rfl
      omega
    · intro p hp
      show p ∈ MV.mapKeys (runAgg (startAgg items) sched).filesMap
      rcases hcov p hp with hx | ⟨u, hu, _⟩
      · exact hx
      · rw [hdone] at hu
        exact absurd hu (List.not_mem_nil u)

/-- Claim C1 counterexample: dropping an entry that is neither a file
nor a directory followed by a file entry makes the synchronous scan
call resolve with the counters at one each and an empty files map,
before the file entry has even been counted as expected; the file
callback then triggers a second resolve call whose snapshot finally
holds the file.  The promise therefore settles on the first call, with
zero of the one dropped file registered. -/
theorem c1_premature_resolution :
    (startAgg [Entry.other, Entry.file "a.stl" "a.stl" 7]).resolutions = [⟨1, 1, []⟩]
    ∧ (startAgg [Entry.other, Entry.file "a.stl" "a.stl" 7]).itemsTotal = 2
    ∧ (getFilesFromItemList [Entry.other, Entry.file "a.stl" "a.stl" 7] [0]).pending = []
    ∧ (getFilesFromItemList [Entry.other, Entry.file "a.stl" "a.stl" 7] [0]).resolutions
        = [⟨1, 1, []⟩, ⟨2, 2, [("a.stl", 7)]⟩] :=
  ⟨rfl, rfl, rfl, rfl⟩

/-- Witness for C1: a drop of one file entry, under the one-step
schedule, resolves once with the file registered. -/
theorem c1_aggregation_barrier_witness :
    (getFilesFromItemList [Entry.file "a.stl" "a.stl" 7] [0]).pending = []
    ∧ (getFilesFromItemList [Entry.file "a.stl" "a.stl" 7] [0]).resolutions.length = 1 := by
  have h := c1_aggregation_barrier [Entry.file "a.stl" "a.stl" 7] [0] trivial (by decide)
  exact ⟨h.1, h.2.1⟩

end Agg
